import Mathlib

/-!
# The computation hypergraph of `cnn/cnn.cc`

A shallow embedding of `cnn::Hypergraph`: the eight graph-building members
(`add_input` in three forms, `add_parameter`, `add_lookup` in two forms,
`add_const_lookup` in two forms), `incremental_forward`, `forward` and
`backward`.

Conventions of the embedding.

* `std::vector` is a `List`; `v[i]` is the checked access `at_index`, and
  `v.back()` is `back`.  An access outside the vector is undefined behaviour
  in the source and a `Fault` here.
* Nodes and edges are heap objects reached through the vectors `nodes` and
  `edges`; an object is identified with its position in its vector.  The
  vector `parameter_edges` of `Edge*` is the list of the positions, in
  `edges`, of the edges it points to.
* The tensor type and its primitives (`cnn::size`, `cnn::Zero`,
  `cnn::Constant`, `+=`) come from `cnn/tensor.h`, which is not part of the
  sources at hand: they are the parameter `TensorOps`.
* The virtual members `forward` and `backward` of an edge are fields of
  `Edge`; they read the external state `Env` (bound input buffers, parameter
  values) on every call.  `arity()` is `tail.size()`.
* Indices are natural numbers: the graphs considered have fewer than `2^31`
  nodes, so that neither the `unsigned` counters nor the `int` counter of the
  reverse sweep wrap around.
* `backward` additionally returns the sequence of the calls it makes to
  `Edge::backward` and to `Edge::accumulate_grad`, in the order it makes them.
-/

namespace cnn

/-- Position of a node in `Hypergraph::nodes`. -/
abbrev VariableIndex := Nat

/-- Undefined behaviour of the source made observable. -/
inductive Fault where
  | out_of_range : Fault
  | back_of_empty : Fault
  | out_of_fuel : Fault
  deriving DecidableEq

/-- Element access `v[i]` of a `std::vector`. -/
def at_index {α : Type} (v : List α) (i : Nat) : Except Fault α :=
  match v[i]? with
  | some a => .ok a
  | none => .error .out_of_range

/-- Last element `v.back()` of a `std::vector`. -/
def back {α : Type} (v : List α) : Except Fault α :=
  match v.getLast? with
  | some a => .ok a
  | none => .error .back_of_empty

/-- Tensor primitives used by `cnn.cc` and declared in `cnn/tensor.h`:
`cnn::size`, `cnn::Zero`, `cnn::Constant` and `operator+=`. -/
structure TensorOps (T : Type) where
  size : T → List Nat
  Zero : List Nat → T
  Constant : List Nat → Int → T
  add : T → T → T

/-- A node as built by `new Node(in_edge_index, i)`: the index of its
producing edge, its own index, the cached value `f` and the gradient `dEdf`. -/
structure Node (T : Type) where
  in_edge : Nat
  node_index : VariableIndex
  f : T
  dEdf : T

/-- An edge: its ordered tail, its head, the answer of its virtual
`has_parameters()`, and its virtual `forward` and `backward`. -/
structure Edge (Env T : Type) where
  tail : List VariableIndex
  head_node : VariableIndex
  has_parameters : Bool
  forward : Env → List T → T
  backward : Env → List T → T → T → Nat → T

/-- The members of `Hypergraph` that `cnn.cc` reads and writes. -/
structure Hypergraph (Env T : Type) where
  nodes : List (Node T)
  edges : List (Edge Env T)
  parameter_edges : List Nat
  last_node_evaluated : Nat

/-- What a freshly constructed edge object computes: the bodies of its
virtual `forward` and `backward`. -/
structure EdgeImpl (Env T : Type) where
  forward : Env → List T → T
  backward : Env → List T → T → T → Nat → T

/-- A default-constructed `Hypergraph`: no node, no edge, cursor `0`. -/
def Hypergraph.empty {Env T : Type} : Hypergraph Env T :=
  { nodes := [], edges := [], parameter_edges := [], last_node_evaluated := 0 }

/-- The constructor `Node(in_edge_index, i)`; `f` and `dEdf` are
default-constructed tensors. -/
def Node.new {T : Type} [Inhabited T] (in_edge_index : Nat) (i : VariableIndex) : Node T :=
  { in_edge := in_edge_index, node_index := i, f := default, dEdf := default }

/-- Modelled from the spec: the constructors of the built-in edge classes
`ScalarInputEdge`, `InputEdge`, `ParameterEdge` and `LookupEdge` are declared in
`cnn/edges.h` and `cnn/param-edges.h`, which are missing.  They take no variable index, so the
new edge has an empty tail; `has_parameters()` is the default `false` of
`Edge::has_parameters` for the input edges, true for a parameter edge, and
the flag `has_optimizable_parameters` (initially true) for a lookup edge. -/
def Edge.construct {Env T : Type} (impl : EdgeImpl Env T) (has_parameters : Bool) : Edge Env T :=
  { tail := [], head_node := 0, has_parameters := has_parameters,
    forward := impl.forward, backward := impl.backward }

/-- The member `add_input(real s)`. -/
def Hypergraph.add_input {Env T : Type} [Inhabited T] (g : Hypergraph Env T)
    (s : EdgeImpl Env T) : Hypergraph Env T × VariableIndex :=
  let new_node_index := g.nodes.length
  let nodes := g.nodes ++ [Node.new g.edges.length new_node_index]
  let e : Edge Env T := Edge.construct s false
  let edges := g.edges ++ [{ e with head_node := new_node_index }]
  ({ g with nodes := nodes, edges := edges }, new_node_index)

/-- The member `add_input(const real* ps)`. -/
def Hypergraph.add_input_ps {Env T : Type} [Inhabited T] (g : Hypergraph Env T)
    (ps : EdgeImpl Env T) : Hypergraph Env T × VariableIndex :=
  let new_node_index := g.nodes.length
  let nodes := g.nodes ++ [Node.new g.edges.length new_node_index]
  let e : Edge Env T := Edge.construct ps false
  let edges := g.edges ++ [{ e with head_node := new_node_index }]
  ({ g with nodes := nodes, edges := edges }, new_node_index)

/-- The member `add_input(const Dim& d, const vector<float>* pm)`. -/
def Hypergraph.add_input_pm {Env T : Type} [Inhabited T] (g : Hypergraph Env T)
    (pm : EdgeImpl Env T) : Hypergraph Env T × VariableIndex :=
  let new_node_index := g.nodes.length
  let nodes := g.nodes ++ [Node.new g.edges.length new_node_index]
  let e : Edge Env T := Edge.construct pm false
  let edges := g.edges ++ [{ e with head_node := new_node_index }]
  ({ g with nodes := nodes, edges := edges }, new_node_index)

/-- The member `add_parameter(Parameters* p)`. -/
def Hypergraph.add_parameter {Env T : Type} [Inhabited T] (g : Hypergraph Env T)
    (p : EdgeImpl Env T) : Hypergraph Env T × VariableIndex :=
  let new_node_index := g.nodes.length
  let nodes := g.nodes ++ [Node.new g.edges.length new_node_index]
  let new_edge : Edge Env T := Edge.construct p true
  let parameter_edges := g.parameter_edges ++ [g.edges.length]
  let edges := g.edges ++ [{ new_edge with head_node := new_node_index }]
  ({ g with nodes := nodes, edges := edges, parameter_edges := parameter_edges },
    new_node_index)

/-- The member `add_lookup(LookupParameters* p, const unsigned* pindex)`. -/
def Hypergraph.add_lookup_pindex {Env T : Type} [Inhabited T] (g : Hypergraph Env T)
    (p : EdgeImpl Env T) : Hypergraph Env T × VariableIndex :=
  let new_node_index := g.nodes.length
  let nodes := g.nodes ++ [Node.new g.edges.length new_node_index]
  let new_edge : Edge Env T := Edge.construct p true
  let parameter_edges := g.parameter_edges ++ [g.edges.length]
  let edges := g.edges ++ [{ new_edge with head_node := new_node_index }]
  ({ g with nodes := nodes, edges := edges, parameter_edges := parameter_edges },
    new_node_index)

/-- The member `add_lookup(LookupParameters* p, unsigned index)`. -/
def Hypergraph.add_lookup {Env T : Type} [Inhabited T] (g : Hypergraph Env T)
    (p : EdgeImpl Env T) : Hypergraph Env T × VariableIndex :=
  let new_node_index := g.nodes.length
  let nodes := g.nodes ++ [Node.new g.edges.length new_node_index]
  let new_edge : Edge Env T := Edge.construct p true
  let parameter_edges := g.parameter_edges ++ [g.edges.length]
  let edges := g.edges ++ [{ new_edge with head_node := new_node_index }]
  ({ g with nodes := nodes, edges := edges, parameter_edges := parameter_edges },
    new_node_index)

/-- The member `add_const_lookup(LookupParameters* p, unsigned* pindex)`:
the new lookup edge gets `has_optimizable_parameters = false` and is not
pushed on `parameter_edges`. -/
def Hypergraph.add_const_lookup_pindex {Env T : Type} [Inhabited T] (g : Hypergraph Env T)
    (p : EdgeImpl Env T) : Hypergraph Env T × VariableIndex :=
  let new_node_index := g.nodes.length
  let nodes := g.nodes ++ [Node.new g.edges.length new_node_index]
  let new_edge : Edge Env T := { Edge.construct p true with has_parameters := false }
  let edges := g.edges ++ [{ new_edge with head_node := new_node_index }]
  ({ g with nodes := nodes, edges := edges }, new_node_index)

/-- The member `add_const_lookup(LookupParameters* p, unsigned index)`. -/
def Hypergraph.add_const_lookup {Env T : Type} [Inhabited T] (g : Hypergraph Env T)
    (p : EdgeImpl Env T) : Hypergraph Env T × VariableIndex :=
  let new_node_index := g.nodes.length
  let nodes := g.nodes ++ [Node.new g.edges.length new_node_index]
  let new_edge : Edge Env T := { Edge.construct p true with has_parameters := false }
  let edges := g.edges ++ [{ new_edge with head_node := new_node_index }]
  ({ g with nodes := nodes, edges := edges }, new_node_index)

/-- Modelled from the spec: the operator-application builder (the member
template `add_function` of `cnn/cnn.h`, which is missing).  Like every graph-building
operation it appends one node and one edge and wires the head of the edge to
the new node; the tail of the edge is the given argument list, unchecked,
and the edge is not registered in `parameter_edges`. -/
def Hypergraph.add_function {Env T : Type} [Inhabited T] (g : Hypergraph Env T)
    (arguments : List VariableIndex) (fn : EdgeImpl Env T) :
    Hypergraph Env T × VariableIndex :=
  let new_node_index := g.nodes.length
  let nodes := g.nodes ++ [Node.new g.edges.length new_node_index]
  let new_edge : Edge Env T := Edge.construct fn false
  let edges := g.edges ++ [{ new_edge with head_node := new_node_index, tail := arguments }]
  ({ g with nodes := nodes, edges := edges }, new_node_index)

/-- One call of a graph-building member of `cnn.cc`, with the edge object it
constructs. -/
inductive AddCall (Env T : Type) where
  | add_input (s : EdgeImpl Env T)
  | add_input_ps (ps : EdgeImpl Env T)
  | add_input_pm (pm : EdgeImpl Env T)
  | add_parameter (p : EdgeImpl Env T)
  | add_lookup_pindex (p : EdgeImpl Env T)
  | add_lookup (p : EdgeImpl Env T)
  | add_const_lookup_pindex (p : EdgeImpl Env T)
  | add_const_lookup (p : EdgeImpl Env T)

/-- Whether the call is `add_parameter` or `add_lookup`. -/
def AddCall.is_trainable {Env T : Type} : AddCall Env T → Bool
  | .add_parameter _ => true
  | .add_lookup_pindex _ => true
  | .add_lookup _ => true
  | _ => false

/-- Performs one call: the graph after it and the index it returns. -/
def AddCall.apply {Env T : Type} [Inhabited T] (g : Hypergraph Env T) :
    AddCall Env T → Hypergraph Env T × VariableIndex
  | .add_input s => g.add_input s
  | .add_input_ps ps => g.add_input_ps ps
  | .add_input_pm pm => g.add_input_pm pm
  | .add_parameter p => g.add_parameter p
  | .add_lookup_pindex p => g.add_lookup_pindex p
  | .add_lookup p => g.add_lookup p
  | .add_const_lookup_pindex p => g.add_const_lookup_pindex p
  | .add_const_lookup p => g.add_const_lookup p

/-- Performs a sequence of calls on `g`, collecting the returned indices. -/
def run_calls {Env T : Type} [Inhabited T] :
    Hypergraph Env T → List (AddCall Env T) → Hypergraph Env T × List VariableIndex
  | g, [] => (g, [])
  | g, c :: cs =>
    let r := AddCall.apply g c
    let rest := run_calls r.1 cs
    (rest.1, r.2 :: rest.2)

/-- The graph built from the empty one by a sequence of calls. -/
def build {Env T : Type} [Inhabited T] (cs : List (AddCall Env T)) : Hypergraph Env T :=
  (run_calls Hypergraph.empty cs).1

/-- The indices returned by a sequence of calls on the empty graph. -/
def returned {Env T : Type} [Inhabited T] (cs : List (AddCall Env T)) : List VariableIndex :=
  (run_calls (Hypergraph.empty : Hypergraph Env T) cs).2

/-- Gathers `xs[ti] = &nodes[tail_node_index]->f` over the tail of an edge. -/
def tail_values {T : Type} (nodes : List (Node T)) : List VariableIndex → Except Fault (List T)
  | [] => .ok []
  | t :: ts => do
    let tail_node ← at_index nodes t
    let rest ← tail_values nodes ts
    pure (tail_node.f :: rest)

/-- Body of the loop of `incremental_forward`: evaluates the node under the
cursor and advances the cursor. -/
def forward_node {Env T : Type} (ops : TensorOps T) (env : Env) (g : Hypergraph Env T) :
    Except Fault (Hypergraph Env T) := do
  let node ← at_index g.nodes g.last_node_evaluated
  let in_edge ← at_index g.edges node.in_edge
  let xs ← tail_values g.nodes in_edge.tail
  let f := in_edge.forward env xs
  pure { g with
    nodes := g.nodes.set g.last_node_evaluated { node with f := f, dEdf := ops.Zero (ops.size f) },
    last_node_evaluated := g.last_node_evaluated + 1 }

/-- The loop `while (last_node_evaluated < nodes.size())`, with the list of
the nodes it evaluates, in order. -/
def forward_loop {Env T : Type} (ops : TensorOps T) (env : Env) :
    Nat → Hypergraph Env T → Except Fault (Hypergraph Env T × List VariableIndex)
  | 0, _ => .error .out_of_fuel
  | fuel + 1, g =>
    if g.last_node_evaluated < g.nodes.length then do
      let g1 ← forward_node ops env g
      let r ← forward_loop ops env fuel g1
      pure (r.1, g.last_node_evaluated :: r.2)
    else
      pure (g, [])

/-- Outcome of a forward evaluation: the graph after it, the returned tensor
`nodes.back()->f`, and the nodes that were evaluated, in order. -/
structure Forwarded (Env T : Type) where
  graph : Hypergraph Env T
  value : T
  evaluated : List VariableIndex

/-- The member `incremental_forward()`. -/
def Hypergraph.incremental_forward {Env T : Type} (ops : TensorOps T) (env : Env)
    (g : Hypergraph Env T) : Except Fault (Forwarded Env T) := do
  let r ← forward_loop ops env (g.nodes.length - g.last_node_evaluated + 1) g
  let last ← back r.1.nodes
  pure { graph := r.1, value := last.f, evaluated := r.2 }

/-- The member `forward()`. -/
def Hypergraph.forward {Env T : Type} (ops : TensorOps T) (env : Env)
    (g : Hypergraph Env T) : Except Fault (Forwarded Env T) :=
  Hypergraph.incremental_forward ops env { g with last_node_evaluated := 0 }

/-- The loop `for (auto tail_node : in_edge.tail) is_variable |= needs_derivative[tail_node]`. -/
def is_variable_loop (needs_derivative : List Bool) : List VariableIndex → Bool → Except Fault Bool
  | [], is_variable => .ok is_variable
  | tail_node :: rest, is_variable => do
    let b ← at_index needs_derivative tail_node
    is_variable_loop needs_derivative rest (is_variable || b)

/-- The loop `for (unsigned ni = 0; ni < nodes.size(); ++ni)` of `backward`,
over the indices still to visit. -/
def needs_derivative_loop {Env T : Type} (g : Hypergraph Env T) :
    List Nat → List Bool → Except Fault (List Bool)
  | [], needs_derivative => .ok needs_derivative
  | ni :: rest, needs_derivative => do
    let node ← at_index g.nodes ni
    let in_edge ← at_index g.edges node.in_edge
    let is_variable ← is_variable_loop needs_derivative in_edge.tail in_edge.has_parameters
    needs_derivative_loop g rest (needs_derivative.set ni is_variable)

/-- First phase of `backward`: the vector `needs_derivative`. -/
def Hypergraph.needs_derivative {Env T : Type} (g : Hypergraph Env T) : Except Fault (List Bool) :=
  needs_derivative_loop g (List.range g.nodes.length) (List.replicate g.nodes.length false)

/-- A call made by `backward`: `in_edge.backward(xs, node.f, node.dEdf, ti)` for
the node `node`, whose result is added to the gradient of `target`, or
`pedge->accumulate_grad(d)` for the edge at position `pedge`. -/
inductive Event (T : Type) where
  | backward (node : VariableIndex) (ti : Nat) (target : VariableIndex)
  | accumulate_grad (pedge : Nat) (d : T)
  deriving DecidableEq

/-- The loop `for (unsigned ti = 0; ti < in_edge.tail.size(); ++ti)` of the
reverse sweep at node `i`, over the positions still to visit. -/
def backward_tail_loop {Env T : Type} (ops : TensorOps T) (env : Env) (needs_derivative : List Bool)
    (i : Nat) (in_edge : Edge Env T) (xs : List T) :
    List Nat → Hypergraph Env T × List (Event T) → Except Fault (Hypergraph Env T × List (Event T))
  | [], st => .ok st
  | ti :: rest, st => do
    let t ← at_index in_edge.tail ti
    let b ← at_index needs_derivative t
    if b then
      let node ← at_index st.1.nodes i
      let tail_node ← at_index st.1.nodes t
      let d := in_edge.backward env xs node.f node.dEdf ti
      backward_tail_loop ops env needs_derivative i in_edge xs rest
        ({ st.1 with nodes := st.1.nodes.set t { tail_node with dEdf := ops.add tail_node.dEdf d } },
          st.2 ++ [Event.backward i ti t])
    else
      backward_tail_loop ops env needs_derivative i in_edge xs rest st

/-- The loop `for (int i = nodes.size() - 1; i >= 0; --i)` of `backward`, over
the nodes still to visit. -/
def backward_node_loop {Env T : Type} (ops : TensorOps T) (env : Env) (needs_derivative : List Bool) :
    List Nat → Hypergraph Env T × List (Event T) → Except Fault (Hypergraph Env T × List (Event T))
  | [], st => .ok st
  | i :: rest, st => do
    let node ← at_index st.1.nodes i
    let in_edge ← at_index st.1.edges node.in_edge
    let xs ← tail_values st.1.nodes in_edge.tail
    let st1 ← backward_tail_loop ops env needs_derivative i in_edge xs
      (List.range in_edge.tail.length) st
    backward_node_loop ops env needs_derivative rest st1

/-- The loop `for (auto pedge : parameter_edges)` of `backward`. -/
def accumulate_loop {Env T : Type} (g : Hypergraph Env T) :
    List Nat → List (Event T) → Except Fault (List (Event T))
  | [], log => .ok log
  | pe :: rest, log => do
    let pedge ← at_index g.edges pe
    let head ← at_index g.nodes pedge.head_node
    accumulate_loop g rest (log ++ [Event.accumulate_grad pe head.dEdf])

/-- The member `backward()`: the graph after it and the calls it made. -/
def Hypergraph.backward {Env T : Type} (ops : TensorOps T) (env : Env) (g : Hypergraph Env T) :
    Except Fault (Hypergraph Env T × List (Event T)) := do
  let needs_derivative ← g.needs_derivative
  let last ← back g.nodes
  let g1 : Hypergraph Env T := { g with
    nodes := g.nodes.set (g.nodes.length - 1) { last with dEdf := ops.Constant [1] 1 } }
  let st ← backward_node_loop ops env needs_derivative (List.range g1.nodes.length).reverse (g1, [])
  let log ← accumulate_loop st.1 st.1.parameter_edges st.2
  pure (st.1, log)

/-! ## Invariants and reference notions used to state the properties -/

variable {Env T : Type}

/-- The edge object that a call constructs. -/
def AddCall.impl : AddCall Env T → EdgeImpl Env T
  | .add_input s => s
  | .add_input_ps ps => ps
  | .add_input_pm pm => pm
  | .add_parameter p => p
  | .add_lookup_pindex p => p
  | .add_lookup p => p
  | .add_const_lookup_pindex p => p
  | .add_const_lookup p => p

/-- Checks, for every node, that its producing edge exists and that every tail index of
that edge is smaller than the index of the node. -/
def Hypergraph.dag_check (g : Hypergraph Env T) : Bool :=
  (List.range g.nodes.length).all fun i =>
    match g.nodes[i]? with
    | none => false
    | some nd =>
      match g.edges[nd.in_edge]? with
      | none => false
      | some e => e.tail.all fun t => decide (t < i)

/-- The DAG invariant: every node has a producing edge in `edges`, and every tail index of
that edge is smaller than the index of the node. -/
def Hypergraph.DAG (g : Hypergraph Env T) : Prop := g.dag_check = true

instance (g : Hypergraph Env T) : Decidable g.DAG :=
  inferInstanceAs (Decidable (g.dag_check = true))

/-- Node `i` holds the value its producing edge computes from the values of its tail
nodes, and a zero gradient of the size of that value. -/
def Evaluated (ops : TensorOps T) (env : Env) (g : Hypergraph Env T) (i : Nat) : Prop :=
  ∃ nd e xs, g.nodes[i]? = some nd ∧ g.edges[nd.in_edge]? = some e ∧
    tail_values g.nodes e.tail = .ok xs ∧ nd.f = e.forward env xs ∧
    nd.dEdf = ops.Zero (ops.size nd.f)

/-- The part of the nodes that evaluation never changes. -/
def Hypergraph.skeleton (g : Hypergraph Env T) : List (Nat × VariableIndex) :=
  g.nodes.map fun nd => (nd.in_edge, nd.node_index)

/-- A graph-building operation: one of the members of `cnn.cc`, or an operator application. -/
inductive Append (Env T : Type) where
  | call (c : AddCall Env T)
  | function (arguments : List VariableIndex) (fn : EdgeImpl Env T)

/-- Performs one graph-building operation. -/
def Append.apply [Inhabited T] (g : Hypergraph Env T) : Append Env T → Hypergraph Env T
  | .call c => (AddCall.apply g c).1
  | .function arguments fn => (g.add_function arguments fn).1

/-- Performs a sequence of graph-building operations. -/
def extend [Inhabited T] : Hypergraph Env T → List (Append Env T) → Hypergraph Env T
  | g, [] => g
  | g, a :: as => extend (Append.apply g a) as

/-- A step of a client that builds a graph while evaluating it. -/
inductive Step (Env T : Type) where
  | add (a : Append Env T)
  | incremental_forward

/-- Performs one step; the state is the graph and the tensor last returned by an evaluation. -/
def Step.run [Inhabited T] (ops : TensorOps T) (env : Env) (st : Hypergraph Env T × Option T) :
    Step Env T → Except Fault (Hypergraph Env T × Option T)
  | .add a => .ok (Append.apply st.1 a, st.2)
  | .incremental_forward => do
    let r ← st.1.incremental_forward ops env
    pure (r.graph, some r.value)

/-- Performs a sequence of steps. -/
def run_script [Inhabited T] (ops : TensorOps T) (env : Env) :
    List (Step Env T) → Hypergraph Env T × Option T → Except Fault (Hypergraph Env T × Option T)
  | [], st => .ok st
  | s :: rest, st => do
    let st1 ← Step.run ops env st s
    run_script ops env rest st1

/-- The graph-building operations of a sequence of steps. -/
def additions : List (Step Env T) → List (Append Env T)
  | [] => []
  | .add a :: rest => a :: additions rest
  | .incremental_forward :: rest => additions rest

/-- Construction invariant: as many nodes as edges, and node `i` is produced by edge `i`. -/
def Hypergraph.Structural (g : Hypergraph Env T) : Prop :=
  g.nodes.length = g.edges.length ∧
    ∀ (i : Nat) (nd : Node T), g.nodes[i]? = some nd → nd.in_edge = i

/-- Every entry of `parameter_edges` points to an edge of the graph whose head is a node of
the graph. -/
def Hypergraph.parameter_check (g : Hypergraph Env T) : Bool :=
  g.parameter_edges.all fun pe =>
    match g.edges[pe]? with
    | none => false
    | some e => decide (e.head_node < g.nodes.length)

/-- A well-formed graph: the DAG invariant, and valid entries in `parameter_edges`. -/
def Hypergraph.WellFormed (g : Hypergraph Env T) : Prop :=
  g.DAG ∧ g.parameter_check = true

instance (g : Hypergraph Env T) : Decidable g.WellFormed :=
  inferInstanceAs (Decidable (g.DAG ∧ g.parameter_check = true))

/-- The node `nd` after the tensors `ds` have been added, in order, to its gradient. -/
def Node.add_grad (ops : TensorOps T) (nd : Node T) (ds : List T) : Node T :=
  { nd with dEdf := ds.foldl ops.add nd.dEdf }

/-- The chain-rule terms that the consumer `m` owes to the node `n`: one term
`backward(tail values of m, value of m, gradient of m, ti)` for every tail position `ti` of the
producing edge of `m` that holds `n`, in increasing order of `ti`. -/
def chain_rule_terms (env : Env) (g : Hypergraph Env T) (n m : Nat) : List T :=
  match g.nodes[m]? with
  | none => []
  | some nd =>
    match g.edges[nd.in_edge]? with
    | none => []
    | some e =>
      match tail_values g.nodes e.tail with
      | .error _ => []
      | .ok xs =>
        (List.range e.tail.length).filterMap fun ti =>
          if e.tail[ti]? = some n then some (e.backward env xs nd.f nd.dEdf ti) else none

/-- The chain-rule sum for the node `n`: the terms of all consumers `m > n`, from the last
node down. -/
def chain_rule_sum (env : Env) (g : Hypergraph Env T) (n : Nat) : List T :=
  ((List.range g.nodes.length).reverse.filter fun m => decide (n < m)).flatMap
    (chain_rule_terms env g n)

/-- The calls of `Edge::backward` that the reverse sweep owes at node `i`: one for every tail
position whose node needs a derivative. -/
def backward_calls (needs_derivative : List Bool) (g : Hypergraph Env T) (i : Nat) :
    List (Event T) :=
  match g.nodes[i]? with
  | none => []
  | some nd =>
    match g.edges[nd.in_edge]? with
    | none => []
    | some e =>
      (List.range e.tail.length).filterMap fun ti =>
        match e.tail[ti]? with
        | none => none
        | some t => if needs_derivative[t]?.getD false then some (Event.backward i ti t) else none

/-- The node `a` is produced by an edge with trainable parameters. -/
def Trainable (g : Hypergraph Env T) (a : Nat) : Prop :=
  ∃ nd e, g.nodes[a]? = some nd ∧ g.edges[nd.in_edge]? = some e ∧ e.has_parameters = true

/-- A path through tail links: `TailPath g a n` when `a` is `n` or a transitive tail input
of `n`. -/
inductive TailPath (g : Hypergraph Env T) : Nat → Nat → Prop where
  | refl (n : Nat) : TailPath g n n
  | step {a t n : Nat} {nd : Node T} {e : Edge Env T} :
      TailPath g a t → g.nodes[n]? = some nd → g.edges[nd.in_edge]? = some e → t ∈ e.tail →
      TailPath g a n

/-- The positions, in creation order, of the calls of `add_parameter` and `add_lookup` in a
sequence of calls. -/
def trainable_calls (cs : List (AddCall Env T)) : List Nat :=
  (List.range cs.length).filter fun k => (cs[k]?).any AddCall.is_trainable

/-- The edges on which a sequence of calls invoked `accumulate_grad`, in order. -/
def accumulated_edges : List (Event T) → List Nat
  | [] => []
  | Event.accumulate_grad pe _ :: rest => pe :: accumulated_edges rest
  | Event.backward _ _ _ :: rest => accumulated_edges rest

/-- One-element tensors over the integers: a sample instance of the tensor primitives. -/
def scalar_ops : TensorOps Int :=
  { size := fun _ => [1], Zero := fun _ => 0, Constant := fun _ v => v, add := fun a b => a + b }

/-- A sample nullary edge that yields the constant `v`. -/
def constant_edge (v : Int) : EdgeImpl Unit Int :=
  { forward := fun _ _ => v, backward := fun _ _ _ _ _ => 0 }

/-- A sample sum edge: the value is the sum of the inputs, and the contribution to every
input is the gradient of the output. -/
def sum_edge : EdgeImpl Unit Int :=
  { forward := fun _ xs => xs.foldl (fun a b => a + b) 0,
    backward := fun _ _ _ dEdf _ => dEdf }

/-- The sample graph `f = p + x`: a parameter `p = 2`, an input `x = 3`, and their sum. -/
def sample_graph : Hypergraph Unit Int :=
  extend Hypergraph.empty
    [Append.call (AddCall.add_parameter (constant_edge 2)),
     Append.call (AddCall.add_input (constant_edge 3)),
     Append.function [0, 1] sum_edge]

/-- The first two nodes of the sample graph. -/
def sample_leaves : Hypergraph Unit Int :=
  extend Hypergraph.empty
    [Append.call (AddCall.add_parameter (constant_edge 2)),
     Append.call (AddCall.add_input (constant_edge 3))]

/-- The outcome of `forward()` on the first two nodes of the sample graph. -/
def sample_leaves_forwarded : Forwarded Unit Int :=
  match sample_leaves.forward scalar_ops () with
  | .ok r => r
  | .error _ => { graph := sample_leaves, value := 0, evaluated := [] }

/-- A sample client that builds the sample graph after a first parameter node, evaluating
after every addition but the last. -/
def sample_script : List (Step Unit Int) :=
  [Step.incremental_forward,
   Step.add (Append.call (AddCall.add_input (constant_edge 3))),
   Step.incremental_forward,
   Step.add (Append.function [0, 1] sum_edge)]

/-! ## Further reference notions and sample graphs -/

/-- The node `n` lies on a path, through tail links, from a node produced by an edge with
trainable parameters to the last node of the graph. -/
def OnParameterPath (g : Hypergraph Env T) (n : Nat) : Prop :=
  ∃ a, Trainable g a ∧ TailPath g a n ∧ TailPath g n (g.nodes.length - 1)

/-- The fault, if any, that a run ends in. -/
def fault_of {α : Type} : Except Fault α → Option Fault
  | .ok _ => none
  | .error e => some e

/-- Modelled from the spec: the tensor type of `cnn/tensor.h` is missing.  Dense tensors
are taken as the list of their entries: the shape of a tensor is its number of entries,
`Zero` and `Constant` allocate to a shape and fill, and `+=` adds entry by entry. -/
def vector_ops : TensorOps (List Int) :=
  { size := fun t => [t.length],
    Zero := fun d => List.replicate (d.foldl (fun a b => a * b) 1) 0,
    Constant := fun d v => List.replicate (d.foldl (fun a b => a * b) 1) v,
    add := fun a b => List.zipWith (fun x y => x + y) a b }

/-- A sample nullary edge that yields the two-entry tensor `[4, 7]`. -/
def pair_edge : EdgeImpl Unit (List Int) :=
  { forward := fun _ _ => [4, 7], backward := fun _ _ _ _ _ => [] }

/-- The sample graph of a single input node holding a tensor of two entries. -/
def pair_graph : Hypergraph Unit (List Int) :=
  extend Hypergraph.empty [Append.call (AddCall.add_input_pm pair_edge)]

/-- A sample graph whose only edge, registered in `parameter_edges`, names a head that is not
a node of the graph. -/
def dangling_head_graph : Hypergraph Unit Int :=
  { nodes := [{ in_edge := 0, node_index := 0, f := 0, dEdf := 0 }],
    edges := [{ tail := [], head_node := 5, has_parameters := true,
                forward := (constant_edge 2).forward, backward := (constant_edge 2).backward }],
    parameter_edges := [0],
    last_node_evaluated := 0 }

/-- One evaluate/differentiate cycle: `forward()` followed by `backward()`. -/
def cycle (ops : TensorOps T) (env : Env) (g : Hypergraph Env T) :
    Except Fault (Hypergraph Env T × List (Event T)) := do
  let r ← g.forward ops env
  r.graph.backward ops env

/-- The value and the gradient of every node. -/
def node_states (g : Hypergraph Env T) : List (T × T) :=
  g.nodes.map fun nd => (nd.f, nd.dEdf)

/-- A sample nullary edge that yields the constant `v`, in a graph whose external state is
the content of one bound buffer. -/
def fixed_edge (v : Int) : EdgeImpl Int Int :=
  { forward := fun _ _ => v, backward := fun _ _ _ _ _ => 0 }

/-- A sample input edge bound to an external buffer: it yields the current content of the
buffer on every call of `forward`. -/
def bound_edge : EdgeImpl Int Int :=
  { forward := fun buffer _ => buffer, backward := fun _ _ _ _ _ => 0 }

/-- A sample two-input sum edge: the value is the sum of the inputs, and the contribution to
either input is the gradient of the output. -/
def plus_edge : EdgeImpl Int Int :=
  { forward := fun _ xs => xs.foldl (fun a b => a + b) 0,
    backward := fun _ _ _ dEdf _ => dEdf }

/-- The sample graph `f = p1 + x`: `p1` is a trainable parameter of value `2` added by
`add_parameter`, `x` is an input bound to an external buffer added by `add_input`, and `f` is
their sum. -/
def bound_graph : Hypergraph Int Int :=
  extend Hypergraph.empty
    [Append.call (AddCall.add_parameter (fixed_edge 2)),
     Append.call (AddCall.add_input_ps bound_edge),
     Append.function [0, 1] plus_edge]

/-- Whether the operation registers its edge in `parameter_edges`. -/
def Append.is_trainable : Append Env T → Bool
  | .call c => c.is_trainable
  | .function _ _ => false

/-- The tail of the edge that the operation creates. -/
def Append.tail : Append Env T → List VariableIndex
  | .call _ => []
  | .function arguments _ => arguments

/-- The caller condition on operator applications: every argument of the `k`-th operation is
an index returned by an earlier operation, that is, an index below `k`. -/
def arguments_returned (adds : List (Append Env T)) : Bool :=
  (List.range adds.length).all fun k =>
    match adds[k]? with
    | none => true
    | some a => a.tail.all fun t => decide (t < k)

/-- The operations that build the sample graph `f = p + x`. -/
def sample_additions : List (Append Unit Int) :=
  [Append.call (AddCall.add_parameter (constant_edge 2)),
   Append.call (AddCall.add_input (constant_edge 3)),
   Append.function [0, 1] sum_edge]

/-- The operations that build the sample graph `f = c + p`. -/
def const_lookup_additions : List (Append Unit Int) :=
  [Append.call (AddCall.add_const_lookup (constant_edge 3)),
   Append.call (AddCall.add_parameter (constant_edge 2)),
   Append.function [0, 1] sum_edge]

/-- The sample graph `f = c + p`: `c` is a lookup of value `3` added by `add_const_lookup`,
`p` is a trainable parameter of value `2`, and `f` is their sum. -/
def const_lookup_graph : Hypergraph Unit Int :=
  extend Hypergraph.empty const_lookup_additions

/-- The graph that `forward()` leaves. -/
def after_forward (ops : TensorOps T) (env : Env) (g : Hypergraph Env T) : Hypergraph Env T :=
  match g.forward ops env with
  | .ok r => r.graph
  | .error _ => g

/-- The graph that one cycle `forward(); backward()` leaves. -/
def after_cycle (ops : TensorOps T) (env : Env) (g : Hypergraph Env T) : Hypergraph Env T :=
  match cycle ops env g with
  | .ok p => p.1
  | .error _ => g

/-- The sample graph `f = p + x` with other values and gradients in its nodes. -/
def scrambled_sample_graph : Hypergraph Unit Int :=
  { sample_graph with nodes := sample_graph.nodes.map fun nd => { nd with f := 9, dEdf := 9 } }

/-! ## Basic facts about checked access and the DAG invariant, and forward evaluation -/

theorem DAG_iff (g : Hypergraph Env T) :
    g.DAG ↔ ∀ i, i < g.nodes.length → ∃ nd e, g.nodes[i]? = some nd ∧
      g.edges[nd.in_edge]? = some e ∧ ∀ t : Nat, t ∈ e.tail → t < i := by
  unfold Hypergraph.DAG Hypergraph.dag_check
  rw [List.all_eq_true]
  constructor
  · intro h i hi
    have := h i (List.mem_range.mpr hi)
    split at this
    · simp at this
    · rename_i nd hnd
      split at this
      · simp at this
      · rename_i e he
        exact ⟨nd, e, hnd, he, by simpa using this⟩
  · intro h i hi
    obtain ⟨nd, e, hnd, he, ht⟩ := h i (List.mem_range.mp hi)
    simp [hnd, he]
    exact ht

@[simp] theorem ok_bind {α β : Type} (a : α) (f : α → Except Fault β) :
    (Except.ok a >>= f) = f a := rfl

@[simp] theorem error_bind {α β : Type} (e : Fault) (f : α → Except Fault β) :
    (Except.error e >>= f) = Except.error e := rfl

@[simp] theorem map_ok {α β : Type} (a : α) (f : α → β) :
    (f <$> (Except.ok a : Except Fault α)) = Except.ok (f a) := rfl

@[simp] theorem map_error {α β : Type} (e : Fault) (f : α → β) :
    (f <$> (Except.error e : Except Fault α)) = Except.error e := rfl

@[simp] theorem pure_eq_ok {α : Type} (a : α) : (pure a : Except Fault α) = Except.ok a := rfl

theorem at_index_eq_ok {α : Type} {v : List α} {i : Nat} {a : α} (h : v[i]? = some a) :
    at_index v i = .ok a := by
  simp [at_index, h]

theorem at_index_ok_iff {α : Type} {v : List α} {i : Nat} {a : α} :
    at_index v i = .ok a ↔ v[i]? = some a := by
  unfold at_index
  cases h : v[i]? <;> simp

theorem skeleton_length (g : Hypergraph Env T) : g.skeleton.length = g.nodes.length := by
  simp [Hypergraph.skeleton]

theorem skeleton_get {g g' : Hypergraph Env T} (h : g'.skeleton = g.skeleton) {i : Nat} {nd : Node T}
    (hnd : g.nodes[i]? = some nd) :
    ∃ nd', g'.nodes[i]? = some nd' ∧ nd'.in_edge = nd.in_edge ∧ nd'.node_index = nd.node_index := by
  have := congrArg (fun l => l[i]?) h
  simp only [Hypergraph.skeleton, List.getElem?_map, hnd, Option.map_some'] at this
  cases h' : g'.nodes[i]? with
  | none => simp [h'] at this
  | some nd' =>
    simp [h'] at this
    exact ⟨nd', rfl, this.1, this.2⟩

theorem length_eq_of_skeleton {g g' : Hypergraph Env T} (h : g'.skeleton = g.skeleton) :
    g'.nodes.length = g.nodes.length := by
  rw [← skeleton_length, h, skeleton_length]

theorem DAG_of_skeleton {g g' : Hypergraph Env T} (hd : g.DAG) (he : g'.edges = g.edges)
    (hs : g'.skeleton = g.skeleton) : g'.DAG := by
  rw [DAG_iff] at *
  intro i hi
  rw [length_eq_of_skeleton hs] at hi
  obtain ⟨nd, e, hnd, hee, ht⟩ := hd i hi
  obtain ⟨nd', hnd', h1, _⟩ := skeleton_get hs hnd
  exact ⟨nd', e, hnd', by rw [he, h1]; exact hee, ht⟩

theorem tail_values_congr {nodes nodes' : List (Node T)} {tail : List VariableIndex}
    (h : ∀ t ∈ tail, (nodes'[t]?).map (fun nd => nd.f) = (nodes[t]?).map (fun nd => nd.f)) :
    tail_values nodes' tail = tail_values nodes tail := by
  induction tail with
  | nil => rfl
  | cons t ts ih =>
    have ht := h t (List.mem_cons_self _ _)
    have ih' := ih (fun t' ht' => h t' (List.mem_cons_of_mem _ ht'))
    simp only [tail_values, ih']
    cases h1 : nodes[t]? with
    | none =>
      simp only [h1, Option.map_none', Option.map_eq_none'] at ht
      simp [at_index, h1, ht]
    | some nd =>
      simp [h1] at ht
      obtain ⟨nd', h2, h3⟩ := ht
      simp [at_index, h1, h2, h3]

theorem tail_values_ok (nodes : List (Node T)) (tail : List VariableIndex)
    (h : ∀ t ∈ tail, t < nodes.length) : ∃ xs, tail_values nodes tail = .ok xs := by
  induction tail with
  | nil => exact ⟨[], rfl⟩
  | cons t ts ih =>
    obtain ⟨xs, hxs⟩ := ih (fun t' ht' => h t' (List.mem_cons_of_mem _ ht'))
    have ht := h t (List.mem_cons_self _ _)
    refine ⟨nodes[t].f :: xs, ?_⟩
    simp [tail_values, hxs, at_index, List.getElem?_eq_getElem ht]

theorem forward_node_spec (ops : TensorOps T) (env : Env) {g : Hypergraph Env T} (hd : g.DAG)
    (hc : g.last_node_evaluated < g.nodes.length) :
    ∃ nd e xs, g.nodes[g.last_node_evaluated]? = some nd ∧ g.edges[nd.in_edge]? = some e ∧
      (∀ t : Nat, t ∈ e.tail → t < g.last_node_evaluated) ∧
      tail_values g.nodes e.tail = .ok xs ∧
      forward_node ops env g = .ok { g with
        nodes := g.nodes.set g.last_node_evaluated
          { nd with f := e.forward env xs, dEdf := ops.Zero (ops.size (e.forward env xs)) },
        last_node_evaluated := g.last_node_evaluated + 1 } := by
  obtain ⟨nd, e, hnd, he, ht⟩ := (DAG_iff g).mp hd _ hc
  obtain ⟨xs, hxs⟩ := tail_values_ok g.nodes e.tail
    (fun t h => lt_trans (ht t h) hc)
  refine ⟨nd, e, xs, hnd, he, ht, hxs, ?_⟩
  simp [forward_node, at_index_eq_ok hnd, at_index_eq_ok he, hxs]

/-- Invariant-carrying description of the evaluation loop. -/
theorem forward_loop_spec (ops : TensorOps T) (env : Env) :
    ∀ (fuel : Nat) (g : Hypergraph Env T), g.DAG →
      g.last_node_evaluated ≤ g.nodes.length →
      g.nodes.length - g.last_node_evaluated < fuel →
      ∃ g', forward_loop ops env fuel g =
          .ok (g', List.range' g.last_node_evaluated (g.nodes.length - g.last_node_evaluated)) ∧
        g'.edges = g.edges ∧ g'.parameter_edges = g.parameter_edges ∧
        g'.skeleton = g.skeleton ∧ g'.last_node_evaluated = g.nodes.length ∧
        (∀ j, j < g.last_node_evaluated → g'.nodes[j]? = g.nodes[j]?) ∧
        (∀ i, g.last_node_evaluated ≤ i → i < g.nodes.length → Evaluated ops env g' i) := by
  intro fuel
  induction fuel with
  | zero => intro g _ _ h; omega
  | succ fuel ih =>
    intro g hd hle hfuel
    by_cases hc : g.last_node_evaluated < g.nodes.length
    · obtain ⟨nd, e, xs, hnd, he, ht, hxs, hstep⟩ := forward_node_spec ops env hd hc
      generalize hg1 : ({ g with
        nodes := g.nodes.set g.last_node_evaluated
          { nd with f := e.forward env xs, dEdf := ops.Zero (ops.size (e.forward env xs)) },
        last_node_evaluated := g.last_node_evaluated + 1 } : Hypergraph Env T) = g1 at hstep
      have e1 : g1.edges = g.edges := by rw [← hg1]
      have p1 : g1.parameter_edges = g.parameter_edges := by rw [← hg1]
      have c1 : g1.last_node_evaluated = g.last_node_evaluated + 1 := by rw [← hg1]
      have n1 : g1.nodes = g.nodes.set g.last_node_evaluated
          { nd with f := e.forward env xs, dEdf := ops.Zero (ops.size (e.forward env xs)) } := by
        rw [← hg1]
      have l1 : g1.nodes.length = g.nodes.length := by rw [n1]; simp
      have s1 : g1.skeleton = g.skeleton := by
        apply List.ext_getElem?
        intro j
        simp only [Hypergraph.skeleton, n1, List.getElem?_map, List.getElem?_set]
        by_cases hj : g.last_node_evaluated = j
        · subst hj; simp [hc, hnd]
        · simp [hj]
      have d1 : g1.DAG := DAG_of_skeleton hd e1 s1
      obtain ⟨g', hrun, e', p', s', c', fr', ev'⟩ :=
        ih g1 d1 (by omega) (by omega)
      refine ⟨g', ?_, e'.trans e1, p'.trans p1, s'.trans s1, by rw [c', l1], ?_, ?_⟩
      · have hr : List.range' g.last_node_evaluated (g.nodes.length - g.last_node_evaluated) =
            g.last_node_evaluated ::
              List.range' g1.last_node_evaluated (g1.nodes.length - g1.last_node_evaluated) := by
          rw [c1, l1]
          have : g.nodes.length - g.last_node_evaluated =
              (g.nodes.length - (g.last_node_evaluated + 1)) + 1 := by omega
          rw [this, List.range'_succ]
        simp [forward_loop, hc, hstep, hrun, hr]
      · intro j hj
        rw [fr' j (by omega), n1, List.getElem?_set_ne (by omega)]
      · intro i hi hin
        by_cases hi' : g.last_node_evaluated = i
        · subst hi'
          have hn' : g'.nodes[g.last_node_evaluated]? = some
              { nd with f := e.forward env xs, dEdf := ops.Zero (ops.size (e.forward env xs)) } := by
            rw [fr' _ (by omega), n1, List.getElem?_set_self hc]
          refine ⟨_, e, xs, hn', by rw [e', e1]; exact he, ?_, rfl, rfl⟩
          rw [← hxs]
          apply tail_values_congr
          intro t htt
          have := ht t htt
          rw [fr' t (by omega), n1, List.getElem?_set_ne (by omega)]
        · exact ev' i (by omega) (by omega)
    · have : g.last_node_evaluated = g.nodes.length := by omega
      refine ⟨g, ?_, rfl, rfl, rfl, this, fun _ _ => rfl, ?_⟩
      · simp [forward_loop, hc, this]
      · intro i h1 h2; omega

theorem back_eq_ok {α : Type} {v : List α} (h : 0 < v.length) :
    back v = .ok (v.get ⟨v.length - 1, by omega⟩) := by
  unfold back
  rw [List.getLast?_eq_getElem?, List.getElem?_eq_getElem (by omega)]
  rfl

theorem back_ok_iff {α : Type} {v : List α} {a : α} : back v = .ok a ↔ v.getLast? = some a := by
  unfold back
  cases h : v.getLast? <;> simp

/-- Description of `incremental_forward` on a graph satisfying the DAG invariant. -/
theorem incremental_forward_spec (ops : TensorOps T) (env : Env) (g : Hypergraph Env T)
    (hd : g.DAG) (hne : 0 < g.nodes.length) (hle : g.last_node_evaluated ≤ g.nodes.length) :
    ∃ r, g.incremental_forward ops env = .ok r ∧
      r.evaluated = List.range' g.last_node_evaluated (g.nodes.length - g.last_node_evaluated) ∧
      r.graph.edges = g.edges ∧ r.graph.parameter_edges = g.parameter_edges ∧
      r.graph.skeleton = g.skeleton ∧ r.graph.last_node_evaluated = g.nodes.length ∧
      (∀ j, j < g.last_node_evaluated → r.graph.nodes[j]? = g.nodes[j]?) ∧
      (∀ i, g.last_node_evaluated ≤ i → i < g.nodes.length → Evaluated ops env r.graph i) ∧
      (r.graph.nodes.getLast?).map (fun nd => nd.f) = some r.value := by
  obtain ⟨g', hrun, he, hp, hs, hc, hfr, hev⟩ :=
    forward_loop_spec ops env (g.nodes.length - g.last_node_evaluated + 1) g hd hle (by omega)
  have hl : 0 < g'.nodes.length := by rw [length_eq_of_skeleton hs]; exact hne
  refine ⟨⟨g', (g'.nodes.get ⟨g'.nodes.length - 1, by omega⟩).f, _⟩, ?_, rfl, he, hp, hs, hc, hfr, hev, ?_⟩
  · simp [Hypergraph.incremental_forward, hrun, back_eq_ok hl]
  · simp only [List.getLast?_eq_getElem?]
    rw [List.getElem?_eq_getElem (by omega)]
    rfl

/-- Description of `forward()` on a non-empty graph satisfying the DAG invariant. -/
theorem forward_spec (ops : TensorOps T) (env : Env) (g : Hypergraph Env T)
    (hd : g.DAG) (hne : 0 < g.nodes.length) :
    ∃ r, g.forward ops env = .ok r ∧
      r.graph.nodes.length = g.nodes.length ∧ r.graph.edges = g.edges ∧
      r.graph.parameter_edges = g.parameter_edges ∧ r.graph.skeleton = g.skeleton ∧
      (∀ i, i < g.nodes.length → ∃ nd e xs, r.graph.nodes[i]? = some nd ∧
        g.edges[nd.in_edge]? = some e ∧ tail_values r.graph.nodes e.tail = .ok xs ∧
        nd.f = e.forward env xs ∧ nd.dEdf = ops.Zero (ops.size nd.f)) ∧
      r.graph.last_node_evaluated = g.nodes.length ∧
      (r.graph.nodes.getLast?).map (fun nd => nd.f) = some r.value := by
  have hd0 : ({ g with last_node_evaluated := 0 } : Hypergraph Env T).DAG :=
    DAG_of_skeleton hd rfl rfl
  obtain ⟨r, hr, _, he, hp, hs, hc, _, hev, hv⟩ :=
    incremental_forward_spec ops env { g with last_node_evaluated := 0 } hd0 hne (Nat.zero_le _)
  refine ⟨r, hr, length_eq_of_skeleton hs, he, hp, hs, ?_, hc, hv⟩
  intro i hi
  obtain ⟨nd, e, xs, h1, h2, h3⟩ := hev i (Nat.zero_le _) hi
  exact ⟨nd, e, xs, h1, by rw [← he]; exact h2, h3⟩

/-- Claim C5. On a non-empty graph satisfying the DAG invariant, `forward()` returns;
afterwards every node holds the value its producing edge computes from the values of its tail
nodes, every gradient is the zero tensor of the size of the node value, the cursor is the node
count, and the returned tensor is the value of the last node. -/
theorem forward_postcondition (ops : TensorOps T) (env : Env) (g : Hypergraph Env T)
    (hd : g.DAG) (hne : 0 < g.nodes.length) :
    ∃ r, g.forward ops env = .ok r ∧
      r.graph.nodes.length = g.nodes.length ∧
      (∀ i, i < g.nodes.length → ∃ nd e xs, r.graph.nodes[i]? = some nd ∧
        g.edges[nd.in_edge]? = some e ∧ tail_values r.graph.nodes e.tail = .ok xs ∧
        nd.f = e.forward env xs ∧ nd.dEdf = ops.Zero (ops.size nd.f)) ∧
      r.graph.last_node_evaluated = g.nodes.length ∧
      (r.graph.nodes.getLast?).map (fun nd => nd.f) = some r.value := by
  obtain ⟨r, hr, hl, _, _, _, hev, hc, hv⟩ := forward_spec ops env g hd hne
  exact ⟨r, hr, hl, hev, hc, hv⟩

theorem forward_node_ok {ops : TensorOps T} {env : Env} {g g1 : Hypergraph Env T}
    (h : forward_node ops env g = .ok g1) :
    g1.nodes.length = g.nodes.length ∧ g1.last_node_evaluated = g.last_node_evaluated + 1 := by
  unfold forward_node at h
  cases h1 : at_index g.nodes g.last_node_evaluated with
  | error e => simp [h1] at h
  | ok nd =>
    cases h2 : at_index g.edges nd.in_edge with
    | error e => simp [h1, h2] at h
    | ok e =>
      cases h3 : tail_values g.nodes e.tail with
      | error e => simp [h1, h2, h3] at h
      | ok xs =>
        simp [h1, h2, h3] at h
        subst h
        simp

theorem forward_loop_ok {ops : TensorOps T} {env : Env} :
    ∀ (fuel : Nat) (g g' : Hypergraph Env T) (tr : List VariableIndex),
      forward_loop ops env fuel g = .ok (g', tr) →
      g.last_node_evaluated ≤ g.nodes.length →
      g'.nodes.length = g.nodes.length ∧ g'.last_node_evaluated = g.nodes.length := by
  intro fuel
  induction fuel with
  | zero => intro g g' tr h; simp [forward_loop] at h
  | succ fuel ih =>
    intro g g' tr h hle
    unfold forward_loop at h
    by_cases hc : g.last_node_evaluated < g.nodes.length
    · simp only [hc, if_true] at h
      cases h1 : forward_node ops env g with
      | error e => simp [h1] at h
      | ok g1 =>
        obtain ⟨l1, c1⟩ := forward_node_ok h1
        cases h2 : forward_loop ops env fuel g1 with
        | error e => simp [h1, h2] at h
        | ok p =>
          simp [h1, h2] at h
          have := ih g1 p.1 p.2 h2 (by omega)
          rw [← h.1]
          exact ⟨this.1.trans l1, this.2.trans l1⟩
    · simp [hc] at h
      rw [← h.1]
      exact ⟨rfl, by omega⟩

theorem forward_ok {ops : TensorOps T} {env : Env} {g : Hypergraph Env T} {r : Forwarded Env T}
    (h : g.forward ops env = .ok r) :
    r.graph.nodes.length = g.nodes.length ∧ r.graph.last_node_evaluated = g.nodes.length ∧
      0 < g.nodes.length := by
  unfold Hypergraph.forward Hypergraph.incremental_forward at h
  simp only [Nat.sub_zero] at h
  cases h1 : forward_loop ops env (g.nodes.length + 1) { g with last_node_evaluated := 0 } with
  | error e => simp [h1] at h
  | ok p =>
    have := forward_loop_ok _ _ p.1 p.2 h1 (Nat.zero_le _)
    cases h2 : back p.1.nodes with
    | error e => simp [h1, h2] at h
    | ok last =>
      simp [h1, h2] at h
      subst h
      refine ⟨this.1, this.2, ?_⟩
      rw [back_ok_iff] at h2
      have h3 : p.1.nodes ≠ [] := by
        intro h4; simp [h4] at h2
      have := List.length_pos.mpr h3
      simp_all

theorem tail_values_append {nodes : List (Node T)} (ys : List (Node T)) {tail : List VariableIndex}
    {xs : List T} (h : tail_values nodes tail = .ok xs) :
    tail_values (nodes ++ ys) tail = .ok xs := by
  induction tail generalizing xs with
  | nil => exact h
  | cons t ts ih =>
    simp only [tail_values] at h ⊢
    cases h1 : at_index nodes t with
    | error e => simp [h1] at h
    | ok nd =>
      cases h2 : tail_values nodes ts with
      | error e => simp [h1, h2] at h
      | ok rest =>
        simp [h1, h2] at h
        rw [at_index_ok_iff] at h1
        have h3 : (nodes ++ ys)[t]? = some nd := by
          rw [List.getElem?_append_left]
          · exact h1
          · by_contra hlt
            rw [List.getElem?_eq_none (by omega)] at h1
            exact absurd h1 (by simp)
        simp [at_index_eq_ok h3, ih h2, h]

theorem evaluated_congr {ops : TensorOps T} {env : Env} {g g' : Hypergraph Env T} {i : Nat}
    (hd : g.DAG) (he : g'.edges = g.edges) (hn : ∀ j, j ≤ i → g'.nodes[j]? = g.nodes[j]?)
    (h : Evaluated ops env g i) : Evaluated ops env g' i := by
  obtain ⟨nd, e, xs, h1, h2, h3, h4, h5⟩ := h
  have hi : i < g.nodes.length := by
    by_contra hlt
    rw [List.getElem?_eq_none (by omega)] at h1
    exact absurd h1 (by simp)
  obtain ⟨nd', e', h1', h2', ht⟩ := (DAG_iff g).mp hd i hi
  rw [h1] at h1'
  cases h1'
  rw [h2] at h2'
  cases h2'
  refine ⟨nd, e, xs, by rw [hn i le_rfl]; exact h1, by rw [he]; exact h2, ?_, h4, h5⟩
  rw [← h3]
  apply tail_values_congr
  intro t htt
  rw [hn t (le_of_lt (ht t htt))]

/-- Evaluation has one solution: two fully evaluated copies of a graph hold the same nodes. -/
theorem evaluated_unique {ops : TensorOps T} {env : Env} {g g' : Hypergraph Env T}
    (hd : g.DAG) (he : g'.edges = g.edges) (hs : g'.skeleton = g.skeleton)
    (h : ∀ i, i < g.nodes.length → Evaluated ops env g i)
    (h' : ∀ i, i < g.nodes.length → Evaluated ops env g' i) : g'.nodes = g.nodes := by
  have key : ∀ i, i < g.nodes.length → g'.nodes[i]? = g.nodes[i]? := by
    intro i
    induction i using Nat.strong_induction_on with
    | _ i ih =>
      intro hi
      obtain ⟨nd, e, xs, h1, h2, h3, h4, h5⟩ := h i hi
      obtain ⟨nd', e', xs', h1', h2', h3', h4', h5'⟩ := h' i hi
      obtain ⟨nd0, e0, g1, g2, ht⟩ := (DAG_iff g).mp hd i hi
      rw [h1] at g1
      cases g1
      rw [h2] at g2
      cases g2
      obtain ⟨nd'', k1, k2, k3⟩ := skeleton_get hs h1
      rw [h1'] at k1
      cases k1
      rw [he, k2, h2] at h2'
      cases h2'
      have hx : xs' = xs := by
        have : tail_values g'.nodes e.tail = tail_values g.nodes e.tail :=
          tail_values_congr (fun t htt => by rw [ih t (ht t htt) (lt_trans (ht t htt) hi)])
        rw [h3, h3'] at this
        cases this
        rfl
      subst hx
      rw [h1, h1']
      congr 1
      cases nd
      cases nd'
      simp_all
  apply List.ext_getElem?
  intro i
  by_cases hi : i < g.nodes.length
  · exact key i hi
  · rw [List.getElem?_eq_none (by rw [length_eq_of_skeleton hs]; omega),
      List.getElem?_eq_none (by omega)]

/-! ## Graph construction -/

section Construction

variable [Inhabited T]

theorem apply_spec (g : Hypergraph Env T) (c : AddCall Env T) :
    (AddCall.apply g c).2 = g.nodes.length ∧
    (AddCall.apply g c).1.nodes = g.nodes ++ [Node.new g.edges.length g.nodes.length] ∧
    (AddCall.apply g c).1.edges = g.edges ++
      [{ tail := [], head_node := g.nodes.length, has_parameters := c.is_trainable,
         forward := c.impl.forward, backward := c.impl.backward }] ∧
    (AddCall.apply g c).1.parameter_edges =
      (if c.is_trainable then g.parameter_edges ++ [g.edges.length] else g.parameter_edges) ∧
    (AddCall.apply g c).1.last_node_evaluated = g.last_node_evaluated := by
  cases c <;> simp [AddCall.apply, AddCall.is_trainable, AddCall.impl, Edge.construct,
    Hypergraph.add_input, Hypergraph.add_input_ps, Hypergraph.add_input_pm,
    Hypergraph.add_parameter, Hypergraph.add_lookup_pindex, Hypergraph.add_lookup,
    Hypergraph.add_const_lookup_pindex, Hypergraph.add_const_lookup]

theorem run_calls_append (g : Hypergraph Env T) (cs ds : List (AddCall Env T)) :
    run_calls g (cs ++ ds) =
      ((run_calls (run_calls g cs).1 ds).1, (run_calls g cs).2 ++ (run_calls (run_calls g cs).1 ds).2) := by
  induction cs generalizing g with
  | nil => simp [run_calls]
  | cons c cs ih => simp [run_calls, ih]

theorem build_snoc (cs : List (AddCall Env T)) (c : AddCall Env T) :
    build (cs ++ [c]) = (AddCall.apply (build cs) c).1 := by
  simp [build, run_calls_append, run_calls]

theorem returned_snoc (cs : List (AddCall Env T)) (c : AddCall Env T) :
    returned (cs ++ [c]) = returned cs ++ [(AddCall.apply (build cs) c).2] := by
  simp [returned, build, run_calls_append, run_calls]

theorem build_nodes_length (cs : List (AddCall Env T)) : (build cs).nodes.length = cs.length := by
  induction cs using List.reverseRecOn with
  | nil => rfl
  | append_singleton cs c ih => rw [build_snoc, (apply_spec _ c).2.1]; simp [ih]

theorem build_edges_length (cs : List (AddCall Env T)) : (build cs).edges.length = cs.length := by
  induction cs using List.reverseRecOn with
  | nil => rfl
  | append_singleton cs c ih => rw [build_snoc, (apply_spec _ c).2.2.1]; simp [ih]

/-- Claim C1. On the empty graph, the calls of a sequence of graph-building calls return
`0, 1, 2, ...`: each call returns the number of nodes before it, so the returned indices are
strictly increasing and start at `0`. -/
theorem index_monotonicity (cs : List (AddCall Env T)) :
    returned cs = List.range cs.length ∧
    List.Pairwise (fun a b => a < b) (returned cs) ∧
    ∀ c : AddCall Env T, (build cs).nodes.length = cs.length ∧
      (AddCall.apply (build cs) c).2 = (build cs).nodes.length := by
  have h1 : returned cs = List.range cs.length := by
    induction cs using List.reverseRecOn with
    | nil => rfl
    | append_singleton cs c ih =>
      rw [returned_snoc, ih, (apply_spec _ c).1, build_nodes_length]
      simp [List.range_succ]
  refine ⟨h1, ?_, fun c => ⟨build_nodes_length cs, (apply_spec _ c).1⟩⟩
  rw [h1]; exact List.pairwise_lt_range _

theorem build_in_edges (cs : List (AddCall Env T)) :
    (build cs).nodes.map (fun nd => nd.in_edge) = List.range cs.length := by
  induction cs using List.reverseRecOn with
  | nil => rfl
  | append_singleton cs c ih =>
    rw [build_snoc, (apply_spec _ c).2.1]
    simp [ih, List.range_succ, Node.new, build_edges_length]

theorem build_head_nodes (cs : List (AddCall Env T)) :
    (build cs).edges.map (fun e => e.head_node) = List.range cs.length := by
  induction cs using List.reverseRecOn with
  | nil => rfl
  | append_singleton cs c ih =>
    rw [build_snoc, (apply_spec _ c).2.2.1]
    simp [ih, List.range_succ, build_nodes_length]

theorem build_tails (cs : List (AddCall Env T)) :
    ∀ e ∈ (build cs).edges, e.tail = [] := by
  induction cs using List.reverseRecOn with
  | nil => intro e he; simp [build, run_calls, Hypergraph.empty] at he
  | append_singleton cs c ih =>
    rw [build_snoc, (apply_spec _ c).2.2.1]
    intro e he
    rcases List.mem_append.mp he with h | h
    · exact ih e h
    · simp at h; rw [h]

/-- Claim C2. In a graph built from the empty one there are as many nodes as edges, node `i`
is produced by edge `i`, the head of edge `i` is node `i`, and every further call appends
exactly one node and one edge. -/
theorem construction_invariant (cs : List (AddCall Env T)) :
    (build cs).nodes.length = (build cs).edges.length ∧
    (build cs).nodes.map (fun nd => nd.in_edge) = List.range (build cs).nodes.length ∧
    (build cs).edges.map (fun e => e.head_node) = List.range (build cs).edges.length ∧
    ∀ c : AddCall Env T, ∃ nd e,
      (AddCall.apply (build cs) c).1.nodes = (build cs).nodes ++ [nd] ∧
      (AddCall.apply (build cs) c).1.edges = (build cs).edges ++ [e] ∧
      nd.in_edge = (build cs).edges.length ∧ e.head_node = (build cs).nodes.length := by
  refine ⟨by rw [build_nodes_length, build_edges_length], ?_, ?_, fun c => ?_⟩
  · rw [build_in_edges, build_nodes_length]
  · rw [build_head_nodes, build_edges_length]
  · exact ⟨_, _, (apply_spec _ c).2.1, (apply_spec _ c).2.2.1, rfl, rfl⟩

theorem build_DAG (cs : List (AddCall Env T)) : (build cs).DAG := by
  rw [DAG_iff]
  intro i hi
  have hn := build_nodes_length cs
  have hin := build_in_edges cs
  obtain ⟨nd, hnd⟩ : ∃ nd, (build cs).nodes[i]? = some nd :=
    ⟨_, List.getElem?_eq_getElem hi⟩
  have h1 : nd.in_edge = i := by
    have := congrArg (fun l => l[i]?) hin
    simp [hnd] at this
    rw [List.getElem?_range (by omega)] at this
    simpa using this
  have hie : i < (build cs).edges.length := by rw [build_edges_length]; omega
  refine ⟨nd, (build cs).edges[i], hnd, ?_, ?_⟩
  · rw [h1]; exact List.getElem?_eq_getElem hie
  · intro t ht
    rw [build_tails cs _ (List.getElem_mem hie)] at ht
    simp at ht

theorem append_apply_spec (g : Hypergraph Env T) (a : Append Env T) :
    ∃ e : Edge Env T, (Append.apply g a).nodes = g.nodes ++ [Node.new g.edges.length g.nodes.length] ∧
      (Append.apply g a).edges = g.edges ++ [e] ∧ e.head_node = g.nodes.length ∧
      (Append.apply g a).last_node_evaluated = g.last_node_evaluated := by
  cases a with
  | call c =>
    cases c <;> exact ⟨_, rfl, rfl, rfl, rfl⟩
  | function arguments fn => exact ⟨_, rfl, rfl, rfl, rfl⟩

theorem extend_spec (adds : List (Append Env T)) : ∀ g : Hypergraph Env T,
    (extend g adds).nodes.length = g.nodes.length + adds.length ∧
    (extend g adds).last_node_evaluated = g.last_node_evaluated ∧
    (∀ j, j < g.nodes.length → (extend g adds).nodes[j]? = g.nodes[j]?) := by
  induction adds with
  | nil => intro g; simp [extend]
  | cons a as ih =>
    intro g
    obtain ⟨e, hn, _, _, hc⟩ := append_apply_spec g a
    obtain ⟨h1, h2, h3⟩ := ih (Append.apply g a)
    simp only [extend]
    refine ⟨?_, h2.trans hc, ?_⟩
    · rw [h1, hn]; simp; omega
    · intro j hj
      rw [h3 j (by rw [hn]; simp; omega), hn, List.getElem?_append_left hj]

/-- Claim C6. After one `forward()`, appending nodes and calling `incremental_forward()` evaluates
exactly the appended nodes, in increasing index order, leaves every earlier node as it was,
and moves the cursor to the new node count. -/
theorem incremental_forward_reuse (ops : TensorOps T) (env : Env) (g : Hypergraph Env T)
    (r : Forwarded Env T) (adds : List (Append Env T))
    (hf : g.forward ops env = .ok r) (hd : (extend r.graph adds).DAG) :
    ∃ r', (extend r.graph adds).incremental_forward ops env = .ok r' ∧
      r'.evaluated = List.range' g.nodes.length adds.length ∧
      (∀ j, j < g.nodes.length → r'.graph.nodes[j]? = r.graph.nodes[j]?) ∧
      (∀ i, g.nodes.length ≤ i → i < g.nodes.length + adds.length →
        Evaluated ops env r'.graph i) ∧
      r'.graph.nodes.length = g.nodes.length + adds.length ∧
      r'.graph.last_node_evaluated = g.nodes.length + adds.length := by
  obtain ⟨hl, hc, hpos⟩ := forward_ok hf
  obtain ⟨xl, xc, xfr⟩ := extend_spec adds r.graph
  rw [hl] at xl
  rw [hc] at xc
  obtain ⟨r', hr', htr, _, _, hs, hc', hfr, hev, _⟩ :=
    incremental_forward_spec ops env (extend r.graph adds) hd (by omega) (by omega)
  refine ⟨r', hr', ?_, ?_, ?_, ?_, ?_⟩
  · rw [htr, xl, xc]; congr 1; omega
  · intro j hj
    rw [hfr j (by omega), xfr j (by omega)]
  · intro i h1 h2
    exact hev i (by omega) (by omega)
  · rw [length_eq_of_skeleton hs, xl]
  · rw [hc', xl]

theorem structural_apply {g : Hypergraph Env T} (hs : g.Structural) (a : Append Env T) :
    (Append.apply g a).Structural := by
  obtain ⟨e, hn, he, _, _⟩ := append_apply_spec g a
  refine ⟨by rw [hn, he]; simp [hs.1], ?_⟩
  intro i nd hnd
  rw [hn, List.getElem?_append] at hnd
  by_cases hi : i < g.nodes.length
  · rw [if_pos hi] at hnd; exact hs.2 i nd hnd
  · rw [if_neg hi] at hnd
    have h0 : i - g.nodes.length = 0 := by
      by_contra h
      rw [List.getElem?_eq_none (by simp; omega)] at hnd
      exact absurd hnd (by simp)
    rw [h0] at hnd
    simp at hnd
    rw [← hnd]
    have h1 := hs.1
    simp only [Node.new]
    omega

theorem DAG_of_apply {g : Hypergraph Env T} (hs : g.Structural) {a : Append Env T}
    (hd : (Append.apply g a).DAG) : g.DAG := by
  obtain ⟨e, hn, he, _, _⟩ := append_apply_spec g a
  rw [DAG_iff] at *
  intro i hi
  obtain ⟨nd, e', h1, h2, h3⟩ := hd i (by rw [hn]; simp; omega)
  rw [hn, List.getElem?_append_left hi] at h1
  have h4 := hs.2 i nd h1
  rw [he, List.getElem?_append_left (by rw [h4, ← hs.1]; exact hi)] at h2
  exact ⟨nd, e', h1, h2, h3⟩

theorem DAG_of_extend (adds : List (Append Env T)) : ∀ {g : Hypergraph Env T},
    g.Structural → (extend g adds).DAG → g.DAG := by
  induction adds with
  | nil => intro g _ h; exact h
  | cons a as ih =>
    intro g hs hd
    exact DAG_of_apply hs (ih (structural_apply hs a) hd)

theorem evaluated_apply {ops : TensorOps T} {env : Env} {g : Hypergraph Env T} {i : Nat}
    (h : Evaluated ops env g i) (a : Append Env T) : Evaluated ops env (Append.apply g a) i := by
  obtain ⟨e0, hn, he, _, _⟩ := append_apply_spec g a
  obtain ⟨nd, e, xs, h1, h2, h3, h4, h5⟩ := h
  have hi : i < g.nodes.length := by
    by_contra hlt
    rw [List.getElem?_eq_none (by omega)] at h1
    exact absurd h1 (by simp)
  have hj : nd.in_edge < g.edges.length := by
    by_contra hlt
    rw [List.getElem?_eq_none (by omega)] at h2
    exact absurd h2 (by simp)
  refine ⟨nd, e, xs, ?_, ?_, ?_, h4, h5⟩
  · rw [hn, List.getElem?_append_left hi]; exact h1
  · rw [he, List.getElem?_append_left hj]; exact h2
  · rw [hn]; exact tail_values_append _ h3

theorem run_script_append (ops : TensorOps T) (env : Env) (s1 s2 : List (Step Env T)) :
    ∀ st, run_script ops env (s1 ++ s2) st = (run_script ops env s1 st >>= run_script ops env s2) := by
  induction s1 with
  | nil => intro st; rfl
  | cons s rest ih =>
    intro st
    simp only [List.cons_append, run_script]
    cases h : Step.run ops env st s with
    | error e => rfl
    | ok st1 => simp [ih]

/-- The graph of a building-and-evaluating client is, at every moment, the graph built so far
with a prefix of its nodes evaluated. -/
theorem run_script_spec (ops : TensorOps T) (env : Env) (script : List (Step Env T)) :
    ∀ (g G : Hypergraph Env T) (v : Option T), G.Structural → 0 < G.nodes.length →
      (extend G (additions script)).DAG →
      g.edges = G.edges → g.parameter_edges = G.parameter_edges → g.skeleton = G.skeleton →
      g.last_node_evaluated ≤ g.nodes.length →
      (∀ i, i < g.last_node_evaluated → Evaluated ops env g i) →
      ∃ g' v', run_script ops env script (g, v) = .ok (g', v') ∧
        g'.edges = (extend G (additions script)).edges ∧
        g'.parameter_edges = (extend G (additions script)).parameter_edges ∧
        g'.skeleton = (extend G (additions script)).skeleton ∧
        g'.last_node_evaluated ≤ g'.nodes.length ∧
        (∀ i, i < g'.last_node_evaluated → Evaluated ops env g' i) := by
  induction script with
  | nil =>
    intro g G v _ _ _ he hp hs hc hev
    exact ⟨g, v, rfl, he, hp, hs, hc, hev⟩
  | cons s rest ih =>
    intro g G v hS hpos hd he hp hs hc hev
    cases s with
    | add a =>
      simp only [additions, extend] at hd ⊢
      have hl := length_eq_of_skeleton hs
      obtain ⟨e1, hn1, he1, _, hc1⟩ := append_apply_spec G a
      obtain ⟨e2, hn2, he2, _, hc2⟩ := append_apply_spec g a
      have hea : (Append.apply g a).edges = (Append.apply G a).edges ∧
          (Append.apply g a).parameter_edges = (Append.apply G a).parameter_edges := by
        cases a with
        | call c =>
          cases c <;> simp [Append.apply, AddCall.apply, Hypergraph.add_input,
            Hypergraph.add_input_ps, Hypergraph.add_input_pm, Hypergraph.add_parameter,
            Hypergraph.add_lookup_pindex, Hypergraph.add_lookup,
            Hypergraph.add_const_lookup_pindex, Hypergraph.add_const_lookup, he, hp, hl]
        | function arguments fn => simp [Append.apply, Hypergraph.add_function, he, hp, hl]
      have hsa : (Append.apply g a).skeleton = (Append.apply G a).skeleton := by
        unfold Hypergraph.skeleton at hs ⊢
        rw [hn1, hn2, List.map_append, List.map_append, hs, he, hl]
      obtain ⟨g', v', hrun, r1, r2, r3, r4, r5⟩ :=
        ih (Append.apply g a) (Append.apply G a) v (structural_apply hS a)
          (by rw [hn1]; simp) hd hea.1 hea.2 hsa
          (by rw [hc2, hn2]; simp; omega)
          (fun i hi => evaluated_apply (hev i (by rw [hc2] at hi; exact hi)) a)
      exact ⟨g', v', by simp [run_script, Step.run, hrun], r1, r2, r3, r4, r5⟩
    | incremental_forward =>
      simp only [additions] at hd ⊢
      have hG : G.DAG := DAG_of_extend _ hS hd
      have hg : g.DAG := DAG_of_skeleton hG he hs
      have hl := length_eq_of_skeleton hs
      obtain ⟨r, hr, _, q1, q2, q3, q4, q5, q6, _⟩ :=
        incremental_forward_spec ops env g hg (by omega) hc
      obtain ⟨g', v', hrun, r1, r2, r3, r4, r5⟩ :=
        ih r.graph G (some r.value) hS hpos hd (q1.trans he) (q2.trans hp) (q3.trans hs)
          (by rw [q4, length_eq_of_skeleton q3])
          (fun i hi => by
            rw [q4] at hi
            by_cases hi' : i < g.last_node_evaluated
            · exact evaluated_congr hg q1 (fun j hj => q5 j (by omega)) (hev i hi')
            · exact q6 i (by omega) hi)
      exact ⟨g', v', by simp [run_script, Step.run, hr, hrun], r1, r2, r3, r4, r5⟩

/-- Claim C7. Building a graph with evaluations interleaved, and ending with an evaluation, leaves
the graph and returns the tensor that building the whole graph and calling `forward()` once
does. -/
theorem incremental_agrees_with_forward (ops : TensorOps T) (env : Env) (a : Append Env T)
    (script : List (Step Env T))
    (hd : (extend Hypergraph.empty (a :: additions script)).DAG) :
    ∃ r, (extend Hypergraph.empty (a :: additions script)).forward ops env = .ok r ∧
      run_script ops env (Step.add a :: script ++ [Step.incremental_forward])
        (Hypergraph.empty, none) = .ok (r.graph, some r.value) := by
  have hS0 : (Hypergraph.empty : Hypergraph Env T).Structural :=
    ⟨rfl, fun i nd h => by simp [Hypergraph.empty] at h⟩
  have hS := structural_apply hS0 a
  obtain ⟨e1, hn1, _, _, hc1⟩ := append_apply_spec (Hypergraph.empty : Hypergraph Env T) a
  simp only [extend] at hd ⊢
  obtain ⟨g', v', hrun, r1, r2, r3, r4, r5⟩ :=
    run_script_spec ops env script (Append.apply Hypergraph.empty a) (Append.apply Hypergraph.empty a)
      none hS (by rw [hn1]; simp) hd rfl rfl rfl (by rw [hc1]; exact Nat.zero_le _)
      (fun i hi => by rw [hc1] at hi; exact absurd hi (Nat.not_lt_zero _))
  have hpos : 0 < (extend (Append.apply Hypergraph.empty a) (additions script)).nodes.length := by
    rw [(extend_spec (additions script) (Append.apply Hypergraph.empty a)).1, hn1]
    simp
  generalize extend (Append.apply Hypergraph.empty a) (additions script) = G at *
  have hl := length_eq_of_skeleton r3
  obtain ⟨r, hr, f1, f2, fp, f3, f4, f5, f6⟩ := forward_spec ops env G hd hpos
  have hg' : g'.DAG := DAG_of_skeleton hd r1 r3
  obtain ⟨r', hr', _, q1, q2, q3, q4, q5, q6, q7⟩ :=
    incremental_forward_spec ops env g' hg' (by omega) r4
  have hall' : ∀ i, i < G.nodes.length → Evaluated ops env r'.graph i := by
    intro i hi
    by_cases hi' : i < g'.last_node_evaluated
    · exact evaluated_congr hg' q1 (fun j hj => q5 j (by omega)) (r5 i hi')
    · exact q6 i (by omega) (by omega)
  have hall : ∀ i, i < G.nodes.length → Evaluated ops env r.graph i := by
    intro i hi
    obtain ⟨nd, e, xs, h1, h2, h3⟩ := f4 i hi
    exact ⟨nd, e, xs, h1, by rw [f2]; exact h2, h3⟩
  have hrd : r.graph.DAG := DAG_of_skeleton hd f2 f3
  have hnodes : r'.graph.nodes = r.graph.nodes :=
    evaluated_unique hrd (by rw [q1, r1, f2]) (by rw [q3, r3, f3])
      (fun i hi => hall i (by omega)) (fun i hi => hall' i (by omega))
  have hgraph : r'.graph = r.graph := by
    have e1 : r'.graph.edges = r.graph.edges := by rw [q1, r1, f2]
    have e2 : r'.graph.parameter_edges = r.graph.parameter_edges := by
      rw [q2, r2, fp]
    have e3 : r'.graph.last_node_evaluated = r.graph.last_node_evaluated := by
      rw [q4, f5, hl]
    cases hx : r'.graph
    cases hy : r.graph
    simp_all
  have hval : r'.value = r.value := by
    rw [hnodes, f6] at q7
    simpa using q7.symm
  refine ⟨r, hr, ?_⟩
  show run_script ops env (script ++ [Step.incremental_forward])
    (Append.apply Hypergraph.empty a, none) = _
  rw [run_script_append]
  simp [run_script, Step.run, hrun, hr', hgraph, hval]

end Construction

/-! ## The reachability pass of `backward` -/

theorem at_index_getD {needs : List Bool} {t : Nat} (h : t < needs.length) :
    at_index needs t = .ok (needs[t]?.getD false) := by
  apply at_index_eq_ok
  rw [List.getElem?_eq_getElem h]
  rfl

theorem is_variable_loop_spec (needs : List Bool) (tail : List VariableIndex) :
    ∀ b : Bool, (∀ t : Nat, t ∈ tail → t < needs.length) →
      is_variable_loop needs tail b = .ok (b || tail.any fun t => needs[t]?.getD false) := by
  induction tail with
  | nil => intro b _; simp [is_variable_loop]
  | cons t ts ih =>
    intro b h
    simp only [is_variable_loop, at_index_getD (h t (List.mem_cons_self _ _)), ok_bind]
    rw [ih _ (fun t' ht' => h t' (List.mem_cons_of_mem _ ht'))]
    simp [Bool.or_assoc]

theorem any_congr_mem {α : Type} {l : List α} {p q : α → Bool} (h : ∀ a, a ∈ l → p a = q a) :
    l.any p = l.any q := by
  induction l with
  | nil => rfl
  | cons a as ih =>
    simp only [List.any_cons, h a (List.mem_cons_self _ _),
      ih (fun b hb => h b (List.mem_cons_of_mem _ hb))]

/-- Invariant-carrying description of the reachability pass. -/
theorem needs_derivative_loop_spec (g : Hypergraph Env T) (hd : g.DAG) :
    ∀ (m k : Nat) (needs : List Bool), k + m = g.nodes.length → needs.length = g.nodes.length →
      (∀ i, i < k → ∃ nd e, g.nodes[i]? = some nd ∧ g.edges[nd.in_edge]? = some e ∧
        needs[i]?.getD false = (e.has_parameters || e.tail.any fun t => needs[t]?.getD false)) →
      ∃ needs', needs_derivative_loop g (List.range' k m) needs = .ok needs' ∧
        needs'.length = g.nodes.length ∧
        (∀ i, i < g.nodes.length → ∃ nd e, g.nodes[i]? = some nd ∧ g.edges[nd.in_edge]? = some e ∧
          needs'[i]?.getD false = (e.has_parameters || e.tail.any fun t => needs'[t]?.getD false)) := by
  intro m
  induction m with
  | zero =>
    intro k needs hk hl h
    exact ⟨needs, rfl, hl, fun i hi => h i (by omega)⟩
  | succ m ih =>
    intro k needs hk hl h
    obtain ⟨nd, e, hnd, he, ht⟩ := (DAG_iff g).mp hd k (by omega)
    generalize hv : (e.has_parameters || e.tail.any fun t => needs[t]?.getD false) = v
    have hget : ∀ j, j ≠ k → (needs.set k v)[j]?.getD false = needs[j]?.getD false := by
      intro j hj
      simp [List.getElem?_set_ne (Ne.symm hj)]
    have hany : ∀ (e' : Edge Env T) (i : Nat), (∀ t : Nat, t ∈ e'.tail → t < i) → i ≤ k →
        (e'.tail.any fun t => (needs.set k v)[t]?.getD false)
          = e'.tail.any fun t => needs[t]?.getD false := by
      intro e' i h1 h2
      apply any_congr_mem
      intro t htt
      exact hget t (by have := h1 t htt; omega)
    obtain ⟨needs', hrun, hl', hrec⟩ := ih (k + 1) (needs.set k v) (by omega) (by simp [hl]) (by
      intro i hi
      by_cases hik : i = k
      · subst hik
        refine ⟨nd, e, hnd, he, ?_⟩
        rw [hany e i ht le_rfl, hv]
        simp [List.getElem?_set_self (show i < needs.length by omega)]
      · obtain ⟨nd', e', h1, h2, h3⟩ := h i (by omega)
        obtain ⟨nd'', e'', g1, g2, g3⟩ := (DAG_iff g).mp hd i (by omega)
        rw [h1] at g1; cases g1
        rw [h2] at g2; cases g2
        exact ⟨nd', e', h1, h2, by rw [hget i hik, hany e' i g3 (by omega), h3]⟩)
    refine ⟨needs', ?_, hl', hrec⟩
    simp only [List.range'_succ, needs_derivative_loop, at_index_eq_ok hnd, at_index_eq_ok he, ok_bind]
    rw [is_variable_loop_spec needs e.tail _ (fun t htt => by have := ht t htt; omega), hv]
    exact hrun

/-- The reachability pass returns on a graph satisfying the DAG invariant, and its result
satisfies the recurrence `needs[i] = has_parameters(i) || any needs[tail]`. -/
theorem needs_derivative_spec (g : Hypergraph Env T) (hd : g.DAG) :
    ∃ needs, g.needs_derivative = .ok needs ∧ needs.length = g.nodes.length ∧
      (∀ i, i < g.nodes.length → ∃ nd e, g.nodes[i]? = some nd ∧ g.edges[nd.in_edge]? = some e ∧
        needs[i]?.getD false = (e.has_parameters || e.tail.any fun t => needs[t]?.getD false)) := by
  unfold Hypergraph.needs_derivative
  rw [List.range_eq_range']
  exact needs_derivative_loop_spec g hd g.nodes.length 0 _ (by omega) (by simp)
    (fun i hi => absurd hi (Nat.not_lt_zero _))

/-- A node needs a derivative exactly when it has a trainable node among itself and its
transitive tail inputs. -/
theorem needs_iff_path (g : Hypergraph Env T) (hd : g.DAG) (needs : List Bool)
    (hrec : ∀ i, i < g.nodes.length → ∃ nd e, g.nodes[i]? = some nd ∧
      g.edges[nd.in_edge]? = some e ∧
      needs[i]?.getD false = (e.has_parameters || e.tail.any fun t => needs[t]?.getD false)) :
    ∀ n, n < g.nodes.length →
      (needs[n]?.getD false = true ↔ ∃ a, TailPath g a n ∧ Trainable g a) := by
  intro n hn
  constructor
  · induction n using Nat.strong_induction_on with
    | _ n ih =>
      intro h
      obtain ⟨nd, e, h1, h2, h3⟩ := hrec n hn
      obtain ⟨nd', e', g1, g2, g3⟩ := (DAG_iff g).mp hd n hn
      rw [h1] at g1; cases g1
      rw [h2] at g2; cases g2
      rw [h3, Bool.or_eq_true] at h
      rcases h with h | h
      · exact ⟨n, TailPath.refl n, nd, e, h1, h2, h⟩
      · rw [List.any_eq_true] at h
        obtain ⟨t, ht, hnt⟩ := h
        obtain ⟨a, hp, ha⟩ := ih t (g3 t ht) (lt_trans (g3 t ht) hn) hnt
        exact ⟨a, TailPath.step hp h1 h2 ht, ha⟩
  · rintro ⟨a, hp, ha⟩
    revert hn
    induction hp with
    | refl =>
      intro hm
      obtain ⟨nd, e, h1, h2, h3⟩ := ha
      obtain ⟨nd', e', g1, g2, g3⟩ := hrec a hm
      rw [h1] at g1; cases g1
      rw [h2] at g2; cases g2
      rw [g3, h3]; rfl
    | @step t n nd e hp h1 h2 ht ih =>
      intro hm
      obtain ⟨nd', e', g1, g2, g3⟩ := hrec n hm
      rw [h1] at g1; cases g1
      rw [h2] at g2; cases g2
      have htn : t < g.nodes.length := by
        obtain ⟨nd'', e'', k1, k2, k3⟩ := (DAG_iff g).mp hd n hm
        rw [h1] at k1; cases k1
        rw [h2] at k2; cases k2
        exact lt_trans (k3 t ht) hm
      have := ih htn
      rw [g3, Bool.or_eq_true]
      right
      rw [List.any_eq_true]
      exact ⟨t, ht, this⟩

/-! ## The reverse sweep -/

theorem add_grad_nil (ops : TensorOps T) (nd : Node T) : nd.add_grad ops [] = nd := by
  cases nd; rfl

theorem add_grad_append (ops : TensorOps T) (nd : Node T) (a b : List T) :
    (nd.add_grad ops a).add_grad ops b = nd.add_grad ops (a ++ b) := by
  cases nd; simp [Node.add_grad, List.foldl_append]

/-- Invariant-carrying description of the loop over the tail positions of one node in the
reverse sweep. -/
theorem backward_tail_loop_spec (ops : TensorOps T) (env : Env) (needs : List Bool) (i : Nat)
    (e : Edge Env T) (xs : List T) (nd : Node T) (ht : ∀ t : Nat, t ∈ e.tail → t < i) :
    ∀ (tis : List Nat) (st : Hypergraph Env T × List (Event T)),
      needs.length = st.1.nodes.length → st.1.nodes[i]? = some nd →
      (∀ ti, ti ∈ tis → ti < e.tail.length) →
      ∃ G', backward_tail_loop ops env needs i e xs tis st =
          .ok (G', st.2 ++ tis.filterMap fun ti =>
            match e.tail[ti]? with
            | none => none
            | some t => if needs[t]?.getD false then some (Event.backward i ti t) else none) ∧
        G'.edges = st.1.edges ∧ G'.parameter_edges = st.1.parameter_edges ∧
        G'.last_node_evaluated = st.1.last_node_evaluated ∧
        ∀ j, G'.nodes[j]? = (st.1.nodes[j]?).map fun (n' : Node T) =>
          n'.add_grad ops (if needs[j]?.getD false then
            tis.filterMap fun ti =>
              if e.tail[ti]? = some j then some (e.backward env xs nd.f nd.dEdf ti) else none
            else []) := by
  intro tis
  induction tis with
  | nil =>
    intro st _ _ _
    refine ⟨st.1, by simp [backward_tail_loop], rfl, rfl, rfl, ?_⟩
    intro j
    cases h : st.1.nodes[j]? <;> simp [add_grad_nil]
  | cons ti rest ih =>
    intro st hl hi hti
    have hti' := hti ti (List.mem_cons_self _ _)
    have hrest : ∀ ti', ti' ∈ rest → ti' < e.tail.length :=
      fun ti' h => hti ti' (List.mem_cons_of_mem _ h)
    have hiN : i < st.1.nodes.length := by
      by_contra hlt
      rw [List.getElem?_eq_none (by omega)] at hi
      exact absurd hi (by simp)
    obtain ⟨t, htt⟩ : ∃ t : Nat, e.tail[ti]? = some t := ⟨_, List.getElem?_eq_getElem hti'⟩
    have htmem : t ∈ e.tail := List.getElem?_mem htt
    have hti_lt := ht t htmem
    simp only [backward_tail_loop, at_index_eq_ok htt, ok_bind,
      at_index_getD (show t < needs.length by omega)]
    by_cases hb : needs[t]?.getD false = true
    · obtain ⟨tn, htn⟩ : ∃ tn, st.1.nodes[t]? = some tn :=
        ⟨_, List.getElem?_eq_getElem (show t < st.1.nodes.length by omega)⟩
      simp only [hb, if_true, at_index_eq_ok hi, at_index_eq_ok htn, ok_bind]
      obtain ⟨G', hrun, h1, h2, h3, h4⟩ := ih
        ({ st.1 with nodes := (st.1.nodes.set t
            { tn with dEdf := ops.add tn.dEdf (e.backward env xs nd.f nd.dEdf ti) }) },
          st.2 ++ [Event.backward i ti t])
        (by simp [hl])
        (by simp only; rw [List.getElem?_set_ne (by omega)]; exact hi)
        hrest
      refine ⟨G', ?_, h1, h2, h3, ?_⟩
      · rw [hrun]
        simp [htt, hb]
      · intro j
        rw [h4 j]
        simp only
        by_cases hj : t = j
        · subst hj
          rw [List.getElem?_set_self (by omega), htn]
          simp [hb, htt, Node.add_grad]
        · rw [List.getElem?_set_ne hj]
          simp [htt, hj]
    · simp only [hb]
      obtain ⟨G', hrun, h1, h2, h3, h4⟩ := ih st hl hi hrest
      refine ⟨G', ?_, h1, h2, h3, ?_⟩
      · rw [hrun]
        simp [htt, hb]
      · intro j
        rw [h4 j]
        by_cases hj : t = j
        · subst hj
          simp [hb]
        · simp [htt, hj]

/-- A pass that only adds to gradients keeps the shape of the graph and the node values. -/
theorem add_grad_frame (ops : TensorOps T) {G G' : Hypergraph Env T} {D : Nat → List T}
    (h : ∀ j, G'.nodes[j]? = (G.nodes[j]?).map fun (n' : Node T) => n'.add_grad ops (D j)) :
    G'.skeleton = G.skeleton ∧
    (∀ tail, tail_values G'.nodes tail = tail_values G.nodes tail) ∧
    (∀ (j : Nat) (nd : Node T), G.nodes[j]? = some nd → ∃ nd' : Node T, G'.nodes[j]? = some nd' ∧
      nd'.in_edge = nd.in_edge ∧ nd'.f = nd.f) := by
  refine ⟨?_, ?_, ?_⟩
  · apply List.ext_getElem?
    intro j
    simp only [Hypergraph.skeleton, List.getElem?_map, h j]
    cases G.nodes[j]? <;> simp [Node.add_grad]
  · intro tail
    apply tail_values_congr
    intro t _
    rw [h t]
    cases G.nodes[t]? <;> simp [Node.add_grad]
  · intro j nd hnd
    rw [h j, hnd]
    exact ⟨_, rfl, rfl, rfl⟩

theorem backward_calls_congr (needs : List Bool) {G G' : Hypergraph Env T}
    (he : G'.edges = G.edges) (hs : G'.skeleton = G.skeleton) (i : Nat) :
    backward_calls needs G' i = backward_calls needs G i := by
  unfold backward_calls
  cases h : G.nodes[i]? with
  | none =>
    have : G'.nodes[i]? = none := by
      have hlen := length_eq_of_skeleton hs
      rw [List.getElem?_eq_none_iff] at h ⊢
      omega
    rw [this]
  | some nd =>
    obtain ⟨nd', h1, h2, _⟩ := skeleton_get hs h
    rw [h1]
    simp only [he, h2]

/-- Invariant-carrying description of the reverse sweep. -/
theorem backward_node_loop_spec (ops : TensorOps T) (env : Env) (needs : List Bool) :
    ∀ (is : List Nat) (st : Hypergraph Env T × List (Event T)),
      st.1.DAG → needs.length = st.1.nodes.length → is.Pairwise (fun a b => b < a) →
      (∀ i, i ∈ is → i < st.1.nodes.length) →
      ∃ G', backward_node_loop ops env needs is st =
          .ok (G', st.2 ++ is.flatMap (backward_calls needs st.1)) ∧
        G'.edges = st.1.edges ∧ G'.parameter_edges = st.1.parameter_edges ∧
        G'.last_node_evaluated = st.1.last_node_evaluated ∧
        ∀ j, G'.nodes[j]? = (st.1.nodes[j]?).map fun (n' : Node T) =>
          n'.add_grad ops (if needs[j]?.getD false then
            (is.filter fun m => decide (j < m)).flatMap (chain_rule_terms env G' j)
            else []) := by
  intro is
  induction is with
  | nil =>
    intro st _ _ _ _
    refine ⟨st.1, by simp [backward_node_loop], rfl, rfl, rfl, ?_⟩
    intro j
    cases h : st.1.nodes[j]? <;> simp [add_grad_nil]
  | cons i rest ih =>
    intro st hd hl hpw hlt
    obtain ⟨nd, e, hnd, he, ht⟩ := (DAG_iff st.1).mp hd i (hlt i (List.mem_cons_self _ _))
    have hiN := hlt i (List.mem_cons_self _ _)
    obtain ⟨xs, hxs⟩ := tail_values_ok st.1.nodes e.tail
      (fun t h => lt_trans (ht t h) hiN)
    obtain ⟨G1, hrun1, e1, p1, c1, n1⟩ := backward_tail_loop_spec ops env needs i e xs nd ht
      (List.range e.tail.length) st hl hnd (fun ti h => List.mem_range.mp h)
    obtain ⟨s1, v1, k1⟩ := add_grad_frame ops n1
    have hd1 : G1.DAG := DAG_of_skeleton hd e1 s1
    have hl1 := length_eq_of_skeleton s1
    rw [List.pairwise_cons] at hpw
    obtain ⟨G', hrun, e', p', c', n'⟩ := ih (G1, st.2 ++ backward_calls needs st.1 i)
      hd1 (by rw [hl, hl1]) hpw.2
      (fun i' h => by rw [hl1]; exact hlt i' (List.mem_cons_of_mem _ h))
    obtain ⟨s', v', k'⟩ := add_grad_frame ops n'
    have hcalls : backward_calls needs st.1 i = (List.range e.tail.length).filterMap fun ti =>
        match e.tail[ti]? with
        | none => none
        | some t => if needs[t]?.getD false then some (Event.backward i ti t) else none := by
      unfold backward_calls
      rw [hnd]
      simp only [he]
      try rfl
    refine ⟨G', ?_, e'.trans e1, p'.trans p1, c'.trans c1, ?_⟩
    · simp only [backward_node_loop, at_index_eq_ok hnd, at_index_eq_ok he, hxs, ok_bind, hrun1,
        ← hcalls, hrun]
      congr 2
      simp only [List.flatMap_cons, List.append_assoc]
      congr 2
      apply List.flatMap_congr
      intro a _
      exact backward_calls_congr needs e1 s1 a
    · intro j
      have hrest_lt : ∀ m, m ∈ rest → m < i := hpw.1
      have hfi : (rest.filter fun m => decide (i < m)) = [] := by
        rw [List.filter_eq_nil_iff]
        intro m hm
        have := hrest_lt m hm
        simp
        omega
      have hD1i : ((List.range e.tail.length).filterMap fun ti =>
          if e.tail[ti]? = some i then some (e.backward env xs nd.f nd.dEdf ti) else none) = [] := by
        rw [List.filterMap_eq_nil_iff]
        intro ti _
        have : e.tail[ti]? ≠ some i := by
          intro h
          have := ht i (List.getElem?_mem h)
          omega
        simp [this]
      have hi' : G'.nodes[i]? = some nd := by
        rw [n' i]
        simp only
        rw [n1 i, hnd, hfi, hD1i]
        simp [add_grad_nil]
      have he' : G'.edges[nd.in_edge]? = some e := by rw [e', e1]; exact he
      have hxs' : tail_values G'.nodes e.tail = .ok xs := by rw [v', v1]; exact hxs
      have hterms : chain_rule_terms env G' j i = (List.range e.tail.length).filterMap fun ti =>
          if e.tail[ti]? = some j then some (e.backward env xs nd.f nd.dEdf ti) else none := by
        unfold chain_rule_terms
        rw [hi']
        simp only [he', hxs']
      rw [n' j]
      simp only
      rw [n1 j]
      cases hj : st.1.nodes[j]? with
      | none => rfl
      | some ndj =>
        simp only [Option.map_some', add_grad_append]
        congr 2
        by_cases hb : needs[j]?.getD false = true
        · simp only [hb, if_true]
          by_cases hji : j < i
          · simp [List.filter_cons, hji, hterms]
          · have : ((List.range e.tail.length).filterMap fun ti =>
                if e.tail[ti]? = some j then some (e.backward env xs nd.f nd.dEdf ti) else none) = [] := by
              rw [List.filterMap_eq_nil_iff]
              intro ti _
              have : e.tail[ti]? ≠ some j := by
                intro h
                have := ht j (List.getElem?_mem h)
                omega
              simp [this]
            simp [List.filter_cons, hji, this]
        · simp [hb]

/-! ## `backward` as a whole -/

theorem parameter_check_iff (g : Hypergraph Env T) :
    g.parameter_check = true ↔ ∀ pe, pe ∈ g.parameter_edges →
      ∃ e, g.edges[pe]? = some e ∧ e.head_node < g.nodes.length := by
  unfold Hypergraph.parameter_check
  rw [List.all_eq_true]
  constructor
  · intro h pe hpe
    have := h pe hpe
    split at this
    · simp at this
    · rename_i e he
      exact ⟨e, he, by simpa using this⟩
  · intro h pe hpe
    obtain ⟨e, he, hlt⟩ := h pe hpe
    simp [he, hlt]

theorem wellFormed_of_frame {g g' : Hypergraph Env T} (hw : g.WellFormed) (he : g'.edges = g.edges)
    (hp : g'.parameter_edges = g.parameter_edges) (hs : g'.skeleton = g.skeleton) :
    g'.WellFormed := by
  refine ⟨DAG_of_skeleton hw.1 he hs, ?_⟩
  have := hw.2
  rw [parameter_check_iff] at this ⊢
  rw [hp, he, length_eq_of_skeleton hs]
  exact this

/-- The accumulation loop calls `accumulate_grad` once per entry of the list, in order, with
the gradient of the head node of the entry. -/
theorem accumulate_loop_spec (g : Hypergraph Env T) :
    ∀ (ps : List Nat) (log : List (Event T)),
      (∀ pe, pe ∈ ps → ∃ e, g.edges[pe]? = some e ∧ e.head_node < g.nodes.length) →
      ∃ acc, accumulate_loop g ps log = .ok (log ++ acc) ∧
        List.Forall₂ (fun pe ev => ∃ e nd, g.edges[pe]? = some e ∧
          g.nodes[e.head_node]? = some nd ∧ ev = Event.accumulate_grad pe nd.dEdf) ps acc := by
  intro ps
  induction ps with
  | nil => intro log _; exact ⟨[], by simp [accumulate_loop], List.Forall₂.nil⟩
  | cons pe rest ih =>
    intro log h
    obtain ⟨e, he, hlt⟩ := h pe (List.mem_cons_self _ _)
    obtain ⟨nd, hnd⟩ : ∃ nd, g.nodes[e.head_node]? = some nd :=
      ⟨_, List.getElem?_eq_getElem hlt⟩
    obtain ⟨acc, hrun, hall⟩ := ih (log ++ [Event.accumulate_grad pe nd.dEdf])
      (fun pe' h' => h pe' (List.mem_cons_of_mem _ h'))
    refine ⟨Event.accumulate_grad pe nd.dEdf :: acc, ?_, List.Forall₂.cons ⟨e, nd, he, hnd, rfl⟩ hall⟩
    simp [accumulate_loop, at_index_eq_ok he, at_index_eq_ok hnd, hrun]

/-- Description of `backward()` on a non-empty well-formed graph. -/
theorem backward_spec (ops : TensorOps T) (env : Env) (g : Hypergraph Env T)
    (hw : g.WellFormed) (hne : 0 < g.nodes.length) :
    ∃ needs g2 acc, g.needs_derivative = .ok needs ∧
      g.backward ops env =
        .ok (g2, (List.range g.nodes.length).reverse.flatMap (backward_calls needs g) ++ acc) ∧
      List.Forall₂ (fun pe ev => ∃ e nd, g2.edges[pe]? = some e ∧
        g2.nodes[e.head_node]? = some nd ∧ ev = Event.accumulate_grad pe nd.dEdf)
        g.parameter_edges acc ∧
      g2.edges = g.edges ∧ g2.parameter_edges = g.parameter_edges ∧
      g2.last_node_evaluated = g.last_node_evaluated ∧ g2.skeleton = g.skeleton ∧
      ∀ (j : Nat) (nd : Node T), g.nodes[j]? = some nd →
        g2.nodes[j]? = some (Node.add_grad ops
          { nd with dEdf := if j + 1 = g.nodes.length then ops.Constant [1] 1 else nd.dEdf }
          (if needs[j]?.getD false then chain_rule_sum env g2 j else [])) := by
  obtain ⟨needs, hneeds, hnl, _⟩ := needs_derivative_spec g hw.1
  have hback := back_eq_ok hne
  generalize hlast : g.nodes.get ⟨g.nodes.length - 1, by omega⟩ = last at hback
  generalize hg1 : ({ g with nodes := (g.nodes.set (g.nodes.length - 1)
    { last with dEdf := ops.Constant [1] 1 }) } : Hypergraph Env T) = g1
  have e1 : g1.edges = g.edges := by rw [← hg1]
  have p1 : g1.parameter_edges = g.parameter_edges := by rw [← hg1]
  have c1 : g1.last_node_evaluated = g.last_node_evaluated := by rw [← hg1]
  have n1 : g1.nodes = g.nodes.set (g.nodes.length - 1) { last with dEdf := ops.Constant [1] 1 } := by
    rw [← hg1]
  have hlast' : g.nodes[g.nodes.length - 1]? = some last := by
    rw [← hlast, List.getElem?_eq_getElem (by omega)]
    rfl
  have s1 : g1.skeleton = g.skeleton := by
    apply List.ext_getElem?
    intro j
    simp only [Hypergraph.skeleton, n1, List.getElem?_map, List.getElem?_set]
    by_cases hj : g.nodes.length - 1 = j
    · subst hj; simp [hlast', hne]
    · simp [hj]
  have l1 := length_eq_of_skeleton s1
  have hd1 : g1.DAG := DAG_of_skeleton hw.1 e1 s1
  obtain ⟨G', hrun, e', p', c', n'⟩ := backward_node_loop_spec ops env needs
    (List.range g1.nodes.length).reverse (g1, []) hd1 (by rw [hnl, l1])
    (by rw [List.pairwise_reverse]; exact List.pairwise_lt_range _)
    (fun i hi => by simpa using hi)
  dsimp only at hrun e' p' c' n'
  obtain ⟨s', _, _⟩ := add_grad_frame ops n'
  have l' := length_eq_of_skeleton s'
  have hpc : ∀ pe, pe ∈ G'.parameter_edges →
      ∃ e, G'.edges[pe]? = some e ∧ e.head_node < G'.nodes.length := by
    rw [p', p1, e', e1, l', l1]
    exact (parameter_check_iff g).mp hw.2
  obtain ⟨acc, hacc, hall⟩ := accumulate_loop_spec G' G'.parameter_edges
    ([] ++ (List.range g1.nodes.length).reverse.flatMap (backward_calls needs g1)) hpc
  refine ⟨needs, G', acc, hneeds, ?_, ?_, e'.trans e1, p'.trans p1, c'.trans c1, s'.trans s1, ?_⟩
  · rw [l1] at hrun hacc
    simp only [Hypergraph.backward, hneeds, hback, ok_bind, hg1, pure_eq_ok, List.length_set]
    rw [hrun]
    simp only [ok_bind]
    rw [List.nil_append] at hacc ⊢
    rw [hacc]
    simp only [ok_bind]
    congr 3
    apply List.flatMap_congr
    intro a _
    exact backward_calls_congr needs e1 s1 a
  · rw [p', p1] at hall
    exact hall
  · intro j nd hnd
    have hj : j < g.nodes.length := by
      by_contra hlt
      rw [List.getElem?_eq_none (by omega)] at hnd
      exact absurd hnd (by simp)
    rw [n' j]
    have h1 : g1.nodes[j]? = some
        { nd with dEdf := if j + 1 = g.nodes.length then ops.Constant [1] 1 else nd.dEdf } := by
      rw [n1, List.getElem?_set]
      by_cases hjl : g.nodes.length - 1 = j
      · have hj1 : j + 1 = g.nodes.length := by omega
        subst hjl
        rw [hlast'] at hnd
        cases hnd
        simp [hj1, hne]
      · have hj1 : ¬ j + 1 = g.nodes.length := by omega
        simp [hjl, hj1, hnd]
    rw [h1]
    simp only [Option.map_some', chain_rule_sum, l', l1]

/-- Claim C8. After `forward()` and `backward()` on a non-empty well-formed graph, the gradient of
every node that needs a derivative is its seed (one for the last node, zero of the size of its
value otherwise) plus, added in the order of the sweep, one term
`backward(tail values of m, value of m, final gradient of m, ti)` for every consumer `m` above
it and every tail position `ti` of `m` that holds the node. -/
theorem chain_rule_accumulation (ops : TensorOps T) (env : Env) (g : Hypergraph Env T)
    (hw : g.WellFormed) (hne : 0 < g.nodes.length) :
    ∃ r needs g2 log, g.forward ops env = .ok r ∧ r.graph.needs_derivative = .ok needs ∧
      r.graph.backward ops env = .ok (g2, log) ∧
      ∀ (n : Nat) (nd : Node T), r.graph.nodes[n]? = some nd → needs[n]?.getD false = true →
        ∃ nd2 : Node T, g2.nodes[n]? = some nd2 ∧ nd2.f = nd.f ∧
          nd2.dEdf = (chain_rule_sum env g2 n).foldl ops.add
            (if n + 1 = g.nodes.length then ops.Constant [1] 1 else ops.Zero (ops.size nd.f)) := by
  obtain ⟨r, hr, rl, re, rp, rs, rev, _, _⟩ := forward_spec ops env g hw.1 hne
  have hwr : r.graph.WellFormed := wellFormed_of_frame hw re rp rs
  obtain ⟨needs, g2, acc, hneeds, hb, _, _, _, _, _, hn⟩ :=
    backward_spec ops env r.graph hwr (by omega)
  refine ⟨r, needs, g2, _, hr, hneeds, hb, ?_⟩
  intro n nd hnd hneed
  have hlt : n < g.nodes.length := by
    by_contra hlt
    rw [List.getElem?_eq_none (by omega)] at hnd
    exact absurd hnd (by simp)
  obtain ⟨nd', e, xs, h1, _, _, _, hz⟩ := rev n hlt
  rw [hnd] at h1
  cases h1
  refine ⟨_, hn n nd hnd, rfl, ?_⟩
  simp only [Node.add_grad, hneed, if_true, rl]
  congr 1
  by_cases h : n + 1 = g.nodes.length
  · simp [h]
  · simp [h, hz]

theorem mem_backward_calls (needs : List Bool) (g : Hypergraph Env T) (i m ti t : Nat) :
    Event.backward m ti t ∈ backward_calls needs g i ↔
      i = m ∧ ∃ nd e, g.nodes[m]? = some nd ∧ g.edges[nd.in_edge]? = some e ∧
        e.tail[ti]? = some t ∧ needs[t]?.getD false = true := by
  unfold backward_calls
  cases h1 : g.nodes[i]? with
  | none =>
    simp only [List.not_mem_nil, false_iff]
    rintro ⟨rfl, nd, e, h, _⟩
    rw [h1] at h
    cases h
  | some nd =>
    dsimp only
    cases h2 : g.edges[nd.in_edge]? with
    | none =>
      simp only [List.not_mem_nil, false_iff]
      rintro ⟨rfl, nd', e, h, h', _⟩
      rw [h1] at h
      cases h
      rw [h2] at h'
      cases h'
    | some e =>
      dsimp only
      simp only [List.mem_filterMap, List.mem_range]
      constructor
      · rintro ⟨ti', hti', h⟩
        cases h3 : e.tail[ti']? with
        | none => simp [h3] at h
        | some t' =>
          simp only [h3] at h
          split at h
          · rename_i hb
            simp only [Option.some.injEq, Event.backward.injEq] at h
            obtain ⟨rfl, rfl, rfl⟩ := h
            exact ⟨rfl, nd, e, h1, h2, h3, hb⟩
          · cases h
      · rintro ⟨rfl, nd', e', h, h', h3, hb⟩
        rw [h1] at h
        cases h
        rw [h2] at h'
        cases h'
        have hti : ti < e.tail.length := by
          by_contra hlt
          rw [List.getElem?_eq_none (by omega)] at h3
          cases h3
        exact ⟨ti, hti, by simp [h3, hb]⟩

theorem mem_accumulated {ps : List Nat} {acc : List (Event T)} {P : Nat → Event T → Prop}
    (h : List.Forall₂ P ps acc) (hP : ∀ pe ev, P pe ev → ∃ d, ev = Event.accumulate_grad pe d) :
    (∀ m ti t, Event.backward m ti t ∉ acc) ∧ accumulated_edges acc = ps := by
  induction h with
  | nil => exact ⟨fun _ _ _ h => (by cases h), rfl⟩
  | @cons pe ev ps' acc' hpe _ ih =>
    obtain ⟨d, rfl⟩ := hP pe ev hpe
    refine ⟨?_, by simp [accumulated_edges, ih.2]⟩
    intro m ti t hmem
    rcases List.mem_cons.mp hmem with h | h
    · cases h
    · exact ih.1 m ti t h

/-- Claim C9. In `backward()` on a non-empty well-formed graph, a node with no trainable node among
itself and its transitive tail inputs never has `backward` of its producing edge called, and
never receives a contribution; its gradient is left as the seeding step left it.  Every
contribution owed to a node with a trainable node among itself and its transitive tail inputs
is computed. -/
theorem pruning_correctness (ops : TensorOps T) (env : Env) (g : Hypergraph Env T)
    (hw : g.WellFormed) (hne : 0 < g.nodes.length) (n : Nat) (hn : n < g.nodes.length)
    (hno : ¬ ∃ a, TailPath g a n ∧ Trainable g a) :
    ∃ g2 log, g.backward ops env = .ok (g2, log) ∧
      (∀ ti t, Event.backward n ti t ∉ log) ∧
      (∀ m ti, Event.backward m ti n ∉ log) ∧
      (∀ nd : Node T, g.nodes[n]? = some nd → g2.nodes[n]? = some
        { nd with dEdf := if n + 1 = g.nodes.length then ops.Constant [1] 1 else nd.dEdf }) ∧
      (∀ (m ti t : Nat) (nd : Node T) (e : Edge Env T), g.nodes[m]? = some nd →
        g.edges[nd.in_edge]? = some e → e.tail[ti]? = some t →
        (∃ a, TailPath g a t ∧ Trainable g a) → Event.backward m ti t ∈ log) := by
  obtain ⟨needs, hneeds, hnl, hrec⟩ := needs_derivative_spec g hw.1
  obtain ⟨needs', g2, acc, hneeds', hb, hacc, _, _, _, _, hnodes⟩ := backward_spec ops env g hw hne
  rw [hneeds] at hneeds'
  cases hneeds'
  have hpath := needs_iff_path g hw.1 needs hrec
  have hacc' := mem_accumulated hacc (fun pe ev ⟨e, nd, _, _, h⟩ => ⟨_, h⟩)
  have hnf : ¬ needs[n]?.getD false = true := fun h => hno ((hpath n hn).mp h)
  have hmem : ∀ m ti t, Event.backward m ti t ∈
      (List.range g.nodes.length).reverse.flatMap (backward_calls needs g) ++ acc →
      ∃ nd e, g.nodes[m]? = some nd ∧ g.edges[nd.in_edge]? = some e ∧
        e.tail[ti]? = some t ∧ needs[t]?.getD false = true := by
    intro m ti t h
    rcases List.mem_append.mp h with h | h
    · rw [List.mem_flatMap] at h
      obtain ⟨i, _, hi⟩ := h
      exact ((mem_backward_calls needs g i m ti t).mp hi).2
    · exact absurd h (hacc'.1 m ti t)
  refine ⟨g2, _, hb, ?_, ?_, ?_, ?_⟩
  · intro ti t h
    obtain ⟨nd, e, h1, h2, h3, h4⟩ := hmem n ti t h
    obtain ⟨nd', e', g1, g2', g3⟩ := (DAG_iff g).mp hw.1 n hn
    rw [h1] at g1; cases g1
    rw [h2] at g2'; cases g2'
    have htmem := List.getElem?_mem h3
    have htn : t < g.nodes.length := lt_trans (g3 t htmem) hn
    obtain ⟨a, hp, ha⟩ := (hpath t htn).mp h4
    exact hno ⟨a, TailPath.step hp h1 h2 htmem, ha⟩
  · intro m ti h
    obtain ⟨nd, e, h1, h2, h3, h4⟩ := hmem m ti n h
    exact hnf h4
  · intro nd hnd
    rw [hnodes n nd hnd]
    simp [hnf, add_grad_nil]
  · intro m ti t nd e h1 h2 h3 hp
    have hm : m < g.nodes.length := by
      by_contra hlt
      rw [List.getElem?_eq_none (by omega)] at h1
      cases h1
    obtain ⟨nd', e', g1, g2', g3⟩ := (DAG_iff g).mp hw.1 m hm
    rw [h1] at g1; cases g1
    rw [h2] at g2'; cases g2'
    have htn : t < g.nodes.length := lt_trans (g3 t (List.getElem?_mem h3)) hm
    apply List.mem_append_left
    rw [List.mem_flatMap]
    exact ⟨m, by simpa using hm,
      (mem_backward_calls needs g m m ti t).mpr ⟨rfl, nd, e, h1, h2, h3, (hpath t htn).mpr hp⟩⟩

/-- The reverse sweep only calls `Edge::backward`. -/
theorem sweep_events (needs : List Bool) (g : Hypergraph Env T) (is : List Nat) :
    ∀ ev, ev ∈ is.flatMap (backward_calls needs g) → ∃ m ti t, ev = Event.backward m ti t := by
  intro ev hev
  rw [List.mem_flatMap] at hev
  obtain ⟨i, _, hi⟩ := hev
  unfold backward_calls at hi
  split at hi
  · cases hi
  · split at hi
    · cases hi
    · rw [List.mem_filterMap] at hi
      obtain ⟨ti, _, h⟩ := hi
      split at h
      · cases h
      · split at h
        · cases h; exact ⟨_, _, _, rfl⟩
        · cases h

/-- Claim C10. `backward()` on a non-empty well-formed graph first performs the whole reverse sweep,
which only calls `Edge::backward`, and then calls `accumulate_grad` once for each entry of
`parameter_edges`, in order, with the final gradient of the head node of the entry. -/
theorem parameter_accumulation (ops : TensorOps T) (env : Env) (g : Hypergraph Env T)
    (hw : g.WellFormed) (hne : 0 < g.nodes.length) :
    ∃ g2 sweep acc, g.backward ops env = .ok (g2, sweep ++ acc) ∧
      (∀ ev, ev ∈ sweep → ∃ m ti t, ev = Event.backward m ti t) ∧
      List.Forall₂ (fun pe ev => ∃ e nd, g.edges[pe]? = some e ∧
        g2.nodes[e.head_node]? = some nd ∧ ev = Event.accumulate_grad pe nd.dEdf)
        g.parameter_edges acc := by
  obtain ⟨needs, g2, acc, _, hb, hacc, he, _, _, _, _⟩ := backward_spec ops env g hw hne
  exact ⟨g2, _, acc, hb, sweep_events needs g _, by rw [he] at hacc; exact hacc⟩

/-! ## Registration of parameter edges -/

theorem accumulated_edges_sweep (sweep acc : List (Event T))
    (h : ∀ ev, ev ∈ sweep → ∃ m ti t, ev = Event.backward m ti t) :
    accumulated_edges (sweep ++ acc) = accumulated_edges acc := by
  induction sweep with
  | nil => rfl
  | cons ev rest ih =>
    obtain ⟨m, ti, t, rfl⟩ := h ev (List.mem_cons_self _ _)
    simp only [List.cons_append, accumulated_edges]
    exact ih (fun ev' h' => h ev' (List.mem_cons_of_mem _ h'))

theorem trainable_calls_snoc (cs : List (AddCall Env T)) (c : AddCall Env T) :
    trainable_calls (cs ++ [c]) =
      if c.is_trainable then trainable_calls cs ++ [cs.length] else trainable_calls cs := by
  unfold trainable_calls
  rw [List.length_append, List.length_singleton, List.range_succ, List.filter_append]
  have h1 : ((List.range cs.length).filter fun k => ((cs ++ [c])[k]?).any AddCall.is_trainable) =
      (List.range cs.length).filter fun k => (cs[k]?).any AddCall.is_trainable := by
    apply List.filter_congr
    intro k hk
    rw [List.getElem?_append_left (List.mem_range.mp hk)]
  rw [h1]
  by_cases hc : c.is_trainable = true <;> simp [List.filter_cons, hc]

theorem mem_trainable_calls (cs : List (AddCall Env T)) (k : Nat) :
    k ∈ trainable_calls cs ↔ ∃ c, cs[k]? = some c ∧ c.is_trainable = true := by
  unfold trainable_calls
  rw [List.mem_filter, List.mem_range]
  constructor
  · rintro ⟨hk, h⟩
    rw [List.getElem?_eq_getElem hk] at h
    exact ⟨cs[k], List.getElem?_eq_getElem hk, by simpa using h⟩
  · rintro ⟨c, hc, ht⟩
    have hk : k < cs.length := by
      by_contra hlt
      rw [List.getElem?_eq_none (by omega)] at hc
      cases hc
    exact ⟨hk, by rw [hc]; simpa using ht⟩

section Registration

variable [Inhabited T]

theorem build_parameter_edges (cs : List (AddCall Env T)) :
    (build cs).parameter_edges = trainable_calls cs := by
  induction cs using List.reverseRecOn with
  | nil => rfl
  | append_singleton cs c ih =>
    rw [build_snoc, (apply_spec _ c).2.2.2.1, trainable_calls_snoc, ih, build_edges_length]

theorem build_wellFormed (cs : List (AddCall Env T)) : (build cs).WellFormed := by
  refine ⟨build_DAG cs, ?_⟩
  rw [parameter_check_iff]
  intro pe hpe
  rw [build_parameter_edges, mem_trainable_calls] at hpe
  obtain ⟨c, hc, _⟩ := hpe
  have hk : pe < cs.length := by
    by_contra hlt
    rw [List.getElem?_eq_none (by omega)] at hc
    cases hc
  have hlen := build_edges_length cs
  refine ⟨(build cs).edges[pe], List.getElem?_eq_getElem (by omega), ?_⟩
  have := congrArg (fun l => l[pe]?) (build_head_nodes cs)
  simp only [List.getElem?_map, List.getElem?_eq_getElem (show pe < (build cs).edges.length by omega),
    Option.map_some', List.getElem?_range hk, Option.some.injEq] at this
  rw [this, build_nodes_length]
  exact hk

/-- Claim C4. `add_parameter` and `add_lookup` push the position of the new edge on
`parameter_edges`; `add_input` and `add_const_lookup` leave `parameter_edges` as it is.  After
any sequence of calls `parameter_edges` lists, in creation order, the edges made by
`add_parameter` and `add_lookup`, and `backward()` calls `accumulate_grad` on exactly these. -/
theorem parameter_edge_registration (ops : TensorOps T) (env : Env) (g : Hypergraph Env T)
    (p : EdgeImpl Env T) (c : AddCall Env T) (cs : List (AddCall Env T)) :
    ((g.add_parameter p).1.parameter_edges = g.parameter_edges ++ [g.edges.length] ∧
      (g.add_lookup_pindex p).1.parameter_edges = g.parameter_edges ++ [g.edges.length] ∧
      (g.add_lookup p).1.parameter_edges = g.parameter_edges ++ [g.edges.length] ∧
      (g.add_parameter p).1.edges.length = g.edges.length + 1 ∧
      (g.add_lookup_pindex p).1.edges.length = g.edges.length + 1 ∧
      (g.add_lookup p).1.edges.length = g.edges.length + 1) ∧
    ((g.add_input p).1.parameter_edges = g.parameter_edges ∧
      (g.add_input_ps p).1.parameter_edges = g.parameter_edges ∧
      (g.add_input_pm p).1.parameter_edges = g.parameter_edges ∧
      (g.add_const_lookup_pindex p).1.parameter_edges = g.parameter_edges ∧
      (g.add_const_lookup p).1.parameter_edges = g.parameter_edges) ∧
    (build cs).parameter_edges = trainable_calls cs ∧
    (∀ k, k ∈ (build cs).parameter_edges ↔ ∃ c', cs[k]? = some c' ∧ c'.is_trainable = true) ∧
    ∃ r g2 log, (build (c :: cs)).forward ops env = .ok r ∧
      r.graph.backward ops env = .ok (g2, log) ∧
      accumulated_edges log = trainable_calls (c :: cs) := by
  refine ⟨⟨rfl, rfl, rfl, ?_, ?_, ?_⟩, ⟨rfl, rfl, rfl, rfl, rfl⟩, build_parameter_edges cs,
    fun k => by rw [build_parameter_edges]; exact mem_trainable_calls cs k, ?_⟩
  · simp [Hypergraph.add_parameter]
  · simp [Hypergraph.add_lookup_pindex]
  · simp [Hypergraph.add_lookup]
  have hw := build_wellFormed (c :: cs)
  have hne : 0 < (build (c :: cs)).nodes.length := by rw [build_nodes_length]; simp
  obtain ⟨r, hr, rl, re, rp, rs, _⟩ := forward_spec ops env _ hw.1 hne
  have hwr : r.graph.WellFormed := wellFormed_of_frame hw re rp rs
  obtain ⟨needs, g2, acc, _, hb, hacc, _⟩ := backward_spec ops env r.graph hwr (by omega)
  refine ⟨r, g2, _, hr, hb, ?_⟩
  rw [accumulated_edges_sweep _ acc (fun ev hev => sweep_events needs r.graph _ ev hev),
    (mem_accumulated hacc (fun pe ev ⟨e, nd, _, _, h⟩ => ⟨_, h⟩)).2, rp, build_parameter_edges]

end Registration

/-! ## The sample graph `f = p + x` -/

/-- The forward postcondition on the sample graph. -/
theorem forward_postcondition_witness :
    sample_graph.DAG ∧ 0 < sample_graph.nodes.length ∧
    ∃ r, sample_graph.forward scalar_ops () = .ok r ∧
      r.graph.nodes.length = sample_graph.nodes.length ∧
      (∀ i, i < sample_graph.nodes.length → ∃ nd e xs, r.graph.nodes[i]? = some nd ∧
        sample_graph.edges[nd.in_edge]? = some e ∧ tail_values r.graph.nodes e.tail = .ok xs ∧
        nd.f = e.forward () xs ∧ nd.dEdf = scalar_ops.Zero (scalar_ops.size nd.f)) ∧
      r.graph.last_node_evaluated = sample_graph.nodes.length ∧
      (r.graph.nodes.getLast?).map (fun nd => nd.f) = some r.value :=
  ⟨by decide, by decide, forward_postcondition scalar_ops () sample_graph (by decide) (by decide)⟩

/-- Incremental reuse on the sample graph: two evaluated leaves, then the sum appended. -/
theorem incremental_forward_reuse_witness :
    sample_leaves.forward scalar_ops () = .ok sample_leaves_forwarded ∧
    (extend sample_leaves_forwarded.graph [Append.function [0, 1] sum_edge]).DAG ∧
    ∃ r', (extend sample_leaves_forwarded.graph
        [Append.function [0, 1] sum_edge]).incremental_forward scalar_ops () = .ok r' ∧
      r'.evaluated = List.range' sample_leaves.nodes.length 1 ∧
      (∀ j, j < sample_leaves.nodes.length →
        r'.graph.nodes[j]? = sample_leaves_forwarded.graph.nodes[j]?) ∧
      (∀ i, sample_leaves.nodes.length ≤ i → i < sample_leaves.nodes.length + 1 →
        Evaluated scalar_ops () r'.graph i) ∧
      r'.graph.nodes.length = sample_leaves.nodes.length + 1 ∧
      r'.graph.last_node_evaluated = sample_leaves.nodes.length + 1 :=
  ⟨rfl, by decide,
    incremental_forward_reuse scalar_ops () sample_leaves sample_leaves_forwarded
      [Append.function [0, 1] sum_edge] rfl (by decide)⟩

/-- The sample client ends in the state that `forward()` reaches on the sample graph. -/
theorem incremental_agrees_with_forward_witness :
    (extend (Hypergraph.empty : Hypergraph Unit Int)
      (Append.call (AddCall.add_parameter (constant_edge 2)) :: additions sample_script)).DAG ∧
    ∃ r, (extend (Hypergraph.empty : Hypergraph Unit Int)
        (Append.call (AddCall.add_parameter (constant_edge 2)) ::
          additions sample_script)).forward scalar_ops () = .ok r ∧
      run_script scalar_ops ()
        (Step.add (Append.call (AddCall.add_parameter (constant_edge 2))) :: sample_script ++
          [Step.incremental_forward])
        (Hypergraph.empty, none) = .ok (r.graph, some r.value) :=
  ⟨by decide,
    incremental_agrees_with_forward scalar_ops ()
      (Append.call (AddCall.add_parameter (constant_edge 2))) sample_script (by decide)⟩

/-- The chain-rule sums on the sample graph. -/
theorem chain_rule_accumulation_witness :
    sample_graph.WellFormed ∧ 0 < sample_graph.nodes.length ∧
    ∃ r needs g2 log, sample_graph.forward scalar_ops () = .ok r ∧
      r.graph.needs_derivative = .ok needs ∧
      r.graph.backward scalar_ops () = .ok (g2, log) ∧
      ∀ (n : Nat) (nd : Node Int), r.graph.nodes[n]? = some nd → needs[n]?.getD false = true →
        ∃ nd2 : Node Int, g2.nodes[n]? = some nd2 ∧ nd2.f = nd.f ∧
          nd2.dEdf = (chain_rule_sum () g2 n).foldl scalar_ops.add
            (if n + 1 = sample_graph.nodes.length then scalar_ops.Constant [1] 1
              else scalar_ops.Zero (scalar_ops.size nd.f)) :=
  ⟨by decide, by decide,
    chain_rule_accumulation scalar_ops () sample_graph (by decide) (by decide)⟩

/-- The input `x` of the sample graph has no trainable node among itself and its tail inputs. -/
theorem sample_input_has_no_trainable_source :
    ¬ ∃ a, TailPath sample_graph a 1 ∧ Trainable sample_graph a := by
  rintro ⟨a, hp, ha⟩
  have h1 : sample_graph.nodes[1]? = some ⟨1, 1, default, default⟩ := rfl
  have h2 : sample_graph.edges[1]? =
      some (Edge.mk [] 1 false (constant_edge 3).forward (constant_edge 3).backward) := rfl
  have key : a = 1 := by
    cases hp with
    | refl => rfl
    | step hp hnd he ht =>
      rw [h1] at hnd
      cases hnd
      rw [h2] at he
      cases he
      cases ht
  subst key
  obtain ⟨nd, e, hnd, he, htr⟩ := ha
  rw [h1] at hnd
  cases hnd
  rw [h2] at he
  cases he
  cases htr

/-- Pruning on the sample graph, at the input `x`. -/
theorem pruning_correctness_witness :
    sample_graph.WellFormed ∧ 0 < sample_graph.nodes.length ∧ 1 < sample_graph.nodes.length ∧
    (¬ ∃ a, TailPath sample_graph a 1 ∧ Trainable sample_graph a) ∧
    ∃ g2 log, sample_graph.backward scalar_ops () = .ok (g2, log) ∧
      (∀ ti t, Event.backward 1 ti t ∉ log) ∧
      (∀ m ti, Event.backward m ti 1 ∉ log) ∧
      (∀ nd : Node Int, sample_graph.nodes[1]? = some nd → g2.nodes[1]? = some
        { nd with dEdf := if 1 + 1 = sample_graph.nodes.length then scalar_ops.Constant [1] 1
                          else nd.dEdf }) ∧
      (∀ (m ti t : Nat) (nd : Node Int) (e : Edge Unit Int), sample_graph.nodes[m]? = some nd →
        sample_graph.edges[nd.in_edge]? = some e → e.tail[ti]? = some t →
        (∃ a, TailPath sample_graph a t ∧ Trainable sample_graph a) →
        Event.backward m ti t ∈ log) :=
  ⟨by decide, by decide, by decide, sample_input_has_no_trainable_source,
    pruning_correctness scalar_ops () sample_graph (by decide) (by decide) 1 (by decide)
      sample_input_has_no_trainable_source⟩

/-- Parameter accumulation on the sample graph. -/
theorem parameter_accumulation_witness :
    sample_graph.WellFormed ∧ 0 < sample_graph.nodes.length ∧
    ∃ g2 sweep acc, sample_graph.backward scalar_ops () = .ok (g2, sweep ++ acc) ∧
      (∀ ev, ev ∈ sweep → ∃ m ti t, ev = Event.backward m ti t) ∧
      List.Forall₂ (fun pe ev => ∃ e nd, sample_graph.edges[pe]? = some e ∧
        g2.nodes[e.head_node]? = some nd ∧ ev = Event.accumulate_grad pe nd.dEdf)
        sample_graph.parameter_edges acc :=
  ⟨by decide, by decide,
    parameter_accumulation scalar_ops () sample_graph (by decide) (by decide)⟩

/-! ## Reachability flags, seeding, frames, index safety and repeated evaluation -/

theorem getElem?_lt {α : Type} {l : List α} {i : Nat} {a : α} (h : l[i]? = some a) :
    i < l.length := by
  by_contra hlt
  rw [List.getElem?_eq_none (by omega)] at h
  cases h

/-- Under the DAG invariant a tail path only leads upwards. -/
theorem tailPath_le (g : Hypergraph Env T) (hd : g.DAG) {a n : Nat} (hp : TailPath g a n) :
    a ≤ n := by
  induction hp with
  | refl => exact le_rfl
  | @step t n nd e hp h1 h2 ht ih =>
    obtain ⟨nd', e', g1, g2, g3⟩ := (DAG_iff g).mp hd n (getElem?_lt h1)
    rw [h1] at g1; cases g1
    rw [h2] at g2; cases g2
    have := g3 t ht
    omega

/-- Claim C15. On a graph satisfying the DAG invariant the reachability pass of `backward()`
returns a vector with one flag per node that satisfies, at every node, `needs[n] =
has_parameters(n) || any needs[tail]`; equivalently the flag of `n` is set exactly when `n`
or a transitive tail input of `n` is produced by an edge with `has_parameters()`. -/
theorem single_sweep_reachability (g : Hypergraph Env T) (hd : g.DAG) :
    ∃ needs, g.needs_derivative = .ok needs ∧ needs.length = g.nodes.length ∧
      (∀ (n : Nat) (nd : Node T) (e : Edge Env T), g.nodes[n]? = some nd →
        g.edges[nd.in_edge]? = some e →
        needs[n]? = some (e.has_parameters || e.tail.any fun t => needs[t]?.getD false)) ∧
      (∀ n, n < g.nodes.length →
        (needs[n]? = some true ↔ ∃ a, TailPath g a n ∧ Trainable g a)) := by
  obtain ⟨needs, hneeds, hnl, hrec⟩ := needs_derivative_spec g hd
  have hsome : ∀ n, n < g.nodes.length → needs[n]? = some (needs[n]?.getD false) := by
    intro n hn
    rw [List.getElem?_eq_getElem (by omega)]
    rfl
  refine ⟨needs, hneeds, hnl, ?_, ?_⟩
  · intro n nd e h1 h2
    obtain ⟨nd', e', g1, g2, g3⟩ := hrec n (getElem?_lt h1)
    rw [h1] at g1; cases g1
    rw [h2] at g2; cases g2
    rw [hsome n (getElem?_lt h1), g3]
  · intro n hn
    rw [hsome n hn, Option.some.injEq]
    exact needs_iff_path g hd needs hrec n hn

/-- Claim C14, as amended. On a graph satisfying the DAG invariant, the flag of a node is set
exactly when the node or one of its transitive tail inputs is produced by an edge with
trainable parameters, whether or not the node leads to the last node.  In particular every
node on a path from a trainable node to the last node is flagged. -/
theorem reachability_flags_trainable_sources (g : Hypergraph Env T) (hd : g.DAG) :
    ∃ needs, g.needs_derivative = .ok needs ∧
      (∀ n, n < g.nodes.length →
        (needs[n]?.getD false = true ↔ ∃ a, TailPath g a n ∧ Trainable g a)) ∧
      (∀ n, OnParameterPath g n → needs[n]?.getD false = true) := by
  obtain ⟨needs, hneeds, hnl, hrec⟩ := needs_derivative_spec g hd
  have hiff := needs_iff_path g hd needs hrec
  refine ⟨needs, hneeds, hiff, ?_⟩
  rintro n ⟨a, ha, hp, hout⟩
  obtain ⟨nd, e, h1, _⟩ := ha
  have hpos : 0 < g.nodes.length := by
    have := getElem?_lt h1
    omega
  have hn : n < g.nodes.length := by
    have := tailPath_le g hd hout
    omega
  exact (hiff n hn).mpr ⟨a, hp, nd, e, h1, by assumption⟩

/-- The claim C14 fails on the graph of a parameter followed by an input: the parameter node is
flagged although no path leads from it to the last node. -/
theorem reachability_counterexample :
    sample_leaves.needs_derivative = .ok [true, false] ∧ ¬ OnParameterPath sample_leaves 0 := by
  refine ⟨rfl, ?_⟩
  rintro ⟨a, _, _, hout⟩
  have h1 : sample_leaves.nodes[1]? = some ⟨1, 1, default, default⟩ := rfl
  have h2 : sample_leaves.edges[1]? =
      some (Edge.mk [] 1 false (constant_edge 3).forward (constant_edge 3).backward) := rfl
  have hlen : sample_leaves.nodes.length - 1 = 1 := rfl
  rw [hlen] at hout
  generalize hm : (1 : Nat) = m at hout
  cases hout with
  | refl => cases hm
  | step hp hnd he ht =>
    subst hm
    rw [h1] at hnd
    cases hnd
    rw [h2] at he
    cases he
    cases ht

theorem chain_rule_sum_last (env : Env) (g : Hypergraph Env T) (j : Nat)
    (h : j + 1 = g.nodes.length) : chain_rule_sum env g j = [] := by
  unfold chain_rule_sum
  have : ((List.range g.nodes.length).reverse.filter fun m => decide (j < m)) = [] := by
    rw [List.filter_eq_nil_iff]
    intro m hm
    have := List.mem_range.mp (List.mem_reverse.mp hm)
    simp
    omega
  rw [this]
  rfl

/-- Claim C16, as amended. On a non-empty well-formed graph `backward()` leaves, as the
gradient of the last node, the tensor `Constant({1}, 1)`: the seed has the shape `{1}` whatever
the shape of the value of the last node, and nothing is added to it. -/
theorem seed_is_constant_one (ops : TensorOps T) (env : Env) (g : Hypergraph Env T)
    (hw : g.WellFormed) (hne : 0 < g.nodes.length) :
    ∃ g2 log, g.backward ops env = .ok (g2, log) ∧
      ∀ nd : Node T, g.nodes[g.nodes.length - 1]? = some nd →
        g2.nodes[g.nodes.length - 1]? = some { nd with dEdf := ops.Constant [1] 1 } := by
  obtain ⟨needs, g2, acc, _, hb, _, _, _, _, hs, hn⟩ := backward_spec ops env g hw hne
  refine ⟨g2, _, hb, ?_⟩
  intro nd hnd
  have hl : g.nodes.length - 1 + 1 = g.nodes.length := by omega
  rw [hn _ nd hnd, chain_rule_sum_last env g2 _ (by rw [length_eq_of_skeleton hs]; exact hl)]
  simp [hl, add_grad_nil]

/-- The claim C16 fails on a graph whose last node holds a tensor of two entries: after
`forward()` and `backward()` its value has two entries and its gradient, the seed, has one. -/
theorem seed_shape_counterexample :
    (cycle vector_ops () pair_graph).toOption.map (fun p => node_states p.1) =
      some [([4, 7], [1])] ∧
    vector_ops.size [1] ≠ vector_ops.size [4, 7] := by
  decide

/-- Claim C18. On a non-empty well-formed graph `backward()` returns and changes nothing but
gradients: the edges, `parameter_edges`, the cursor, the node and edge counts, and the
producing edge, index and value of every node are as before. -/
theorem backward_frame (ops : TensorOps T) (env : Env) (g : Hypergraph Env T)
    (hw : g.WellFormed) (hne : 0 < g.nodes.length) :
    ∃ g2 log, g.backward ops env = .ok (g2, log) ∧
      g2.edges = g.edges ∧ g2.parameter_edges = g.parameter_edges ∧
      g2.last_node_evaluated = g.last_node_evaluated ∧
      g2.nodes.length = g.nodes.length ∧ g2.edges.length = g.edges.length ∧
      ∀ (j : Nat) (nd : Node T), g.nodes[j]? = some nd →
        ∃ nd2 : Node T, g2.nodes[j]? = some nd2 ∧ nd2.in_edge = nd.in_edge ∧
          nd2.node_index = nd.node_index ∧ nd2.f = nd.f := by
  obtain ⟨needs, g2, acc, _, hb, _, he, hp, hc, hs, hn⟩ := backward_spec ops env g hw hne
  refine ⟨g2, _, hb, he, hp, hc, length_eq_of_skeleton hs, by rw [he], ?_⟩
  intro j nd hnd
  exact ⟨_, hn j nd hnd, rfl, rfl, rfl⟩

section Built1

variable [Inhabited T]

/-- Claim C17. A graph-building call keeps every node, every edge and every entry of
`parameter_edges` that existed before it, at its position, and keeps the cursor: it only
appends one node and one edge, and at most one entry of `parameter_edges`. -/
theorem construction_append_only (g : Hypergraph Env T) (c : AddCall Env T) :
    (∃ nd e ps, (AddCall.apply g c).1.nodes = g.nodes ++ [nd] ∧
      (AddCall.apply g c).1.edges = g.edges ++ [e] ∧
      (AddCall.apply g c).1.parameter_edges = g.parameter_edges ++ ps ∧ ps.length ≤ 1) ∧
    (AddCall.apply g c).1.last_node_evaluated = g.last_node_evaluated ∧
    (∀ (j : Nat) (nd : Node T), g.nodes[j]? = some nd →
      (AddCall.apply g c).1.nodes[j]? = some nd) ∧
    (∀ (j : Nat) (e : Edge Env T), g.edges[j]? = some e →
      (AddCall.apply g c).1.edges[j]? = some e) ∧
    (∀ (j pe : Nat), g.parameter_edges[j]? = some pe →
      (AddCall.apply g c).1.parameter_edges[j]? = some pe) := by
  obtain ⟨_, hn, he, hp, hc⟩ := apply_spec g c
  have hps : ∃ ps, (AddCall.apply g c).1.parameter_edges = g.parameter_edges ++ ps ∧
      ps.length ≤ 1 := by
    rw [hp]
    by_cases ht : c.is_trainable = true
    · exact ⟨[g.edges.length], by simp [ht], by simp⟩
    · exact ⟨[], by simp [ht], by simp⟩
  obtain ⟨ps, hps, hlen⟩ := hps
  refine ⟨⟨_, _, ps, hn, he, hps, hlen⟩, hc, ?_, ?_, ?_⟩
  · intro j nd h
    rw [hn, List.getElem?_append_left (getElem?_lt h)]
    exact h
  · intro j e h
    rw [he, List.getElem?_append_left (getElem?_lt h)]
    exact h
  · intro j pe h
    rw [hps, List.getElem?_append_left (getElem?_lt h)]
    exact h

end Built1

/-- With the cursor at or past the node count, `incremental_forward()` evaluates nothing and
returns the value that the last node already holds. -/
theorem incremental_forward_idle (ops : TensorOps T) (env : Env) (g : Hypergraph Env T)
    (hne : 0 < g.nodes.length) (hc : g.nodes.length ≤ g.last_node_evaluated) :
    ∃ stale, g.incremental_forward ops env = .ok stale ∧ stale.graph = g ∧
      stale.evaluated = [] ∧ (g.nodes.getLast?).map (fun nd => nd.f) = some stale.value := by
  have hfuel : g.nodes.length - g.last_node_evaluated + 1 = 0 + 1 := by omega
  have hcond : ¬ g.last_node_evaluated < g.nodes.length := by omega
  refine ⟨⟨g, (g.nodes.get ⟨g.nodes.length - 1, by omega⟩).f, []⟩, ?_, rfl, rfl, ?_⟩
  · simp [Hypergraph.incremental_forward, hfuel, forward_loop, hcond, back_eq_ok hne]
  · simp only [List.getLast?_eq_getElem?]
    rw [List.getElem?_eq_getElem (by omega)]
    rfl

/-- On a graph without nodes the three evaluation members reach `nodes.back()`. -/
theorem empty_faults (ops : TensorOps T) (env : Env) (g : Hypergraph Env T) (h : g.nodes = []) :
    g.incremental_forward ops env = .error .back_of_empty ∧
    g.forward ops env = .error .back_of_empty ∧
    g.backward ops env = .error .back_of_empty := by
  refine ⟨?_, ?_, ?_⟩
  · simp [Hypergraph.incremental_forward, forward_loop, h, back]
  · simp [Hypergraph.forward, Hypergraph.incremental_forward, forward_loop, h, back]
  · simp [Hypergraph.backward, Hypergraph.needs_derivative, needs_derivative_loop, h, back]

/-- Claim C19, as amended. On a non-empty well-formed graph (DAG invariant, and every entry
of `parameter_edges` an edge of the graph whose head is a node) `incremental_forward()`,
`forward()` and `backward()` return: no access leaves the vectors.  On a graph without nodes
each of the three reaches `nodes.back()` on the empty vector. -/
theorem index_safety (ops : TensorOps T) (env : Env) (g g0 : Hypergraph Env T)
    (hw : g.WellFormed) (hne : 0 < g.nodes.length) (h0 : g0.nodes = []) :
    (∃ r, g.incremental_forward ops env = .ok r) ∧ (∃ r, g.forward ops env = .ok r) ∧
    (∃ p, g.backward ops env = .ok p) ∧
    g0.incremental_forward ops env = .error .back_of_empty ∧
    g0.forward ops env = .error .back_of_empty ∧
    g0.backward ops env = .error .back_of_empty := by
  refine ⟨?_, ?_, ?_, empty_faults ops env g0 h0⟩
  · by_cases hc : g.last_node_evaluated ≤ g.nodes.length
    · obtain ⟨r, hr, _⟩ := incremental_forward_spec ops env g hw.1 hne hc
      exact ⟨r, hr⟩
    · obtain ⟨r, hr, _⟩ := incremental_forward_idle ops env g hne (by omega)
      exact ⟨r, hr⟩
  · obtain ⟨r, hr, _⟩ := forward_spec ops env g hw.1 hne
    exact ⟨r, hr⟩
  · obtain ⟨_, g2, _, _, hb, _⟩ := backward_spec ops env g hw hne
    exact ⟨_, hb⟩

/-- The claim C19 fails without a condition on `parameter_edges`: the graph below is
non-empty, every `in_edge` is an edge, the DAG invariant holds, and `backward()` reads
`nodes[pedge->head_node]` outside `nodes`. -/
theorem index_safety_counterexample :
    0 < dangling_head_graph.nodes.length ∧
    (∀ nd ∈ dangling_head_graph.nodes, nd.in_edge < dangling_head_graph.edges.length) ∧
    dangling_head_graph.DAG ∧
    fault_of (dangling_head_graph.forward scalar_ops ()) = none ∧
    fault_of (dangling_head_graph.backward scalar_ops ()) = some Fault.out_of_range ∧
    fault_of (cycle scalar_ops () dangling_head_graph) = some Fault.out_of_range := by
  decide

/-- The outcome of `forward()` depends on the edges and on the shape of the graph only, not on
the values and gradients that the nodes hold before. -/
theorem forward_independent (ops : TensorOps T) (env : Env) (g g' : Hypergraph Env T)
    (hd : g.DAG) (hne : 0 < g.nodes.length) (he : g'.edges = g.edges)
    (hp : g'.parameter_edges = g.parameter_edges) (hs : g'.skeleton = g.skeleton) :
    ∃ r r', g.forward ops env = .ok r ∧ g'.forward ops env = .ok r' ∧
      r'.graph = r.graph ∧ r'.value = r.value := by
  obtain ⟨r, hr, rl, re, rp, rs, rev, rc, rv⟩ := forward_spec ops env g hd hne
  have hd' : g'.DAG := DAG_of_skeleton hd he hs
  have hl := length_eq_of_skeleton hs
  obtain ⟨r', hr', rl', re', rp', rs', rev', rc', rv'⟩ :=
    forward_spec ops env g' hd' (by omega)
  have hrd : r.graph.DAG := DAG_of_skeleton hd re rs
  have hall : ∀ i, i < r.graph.nodes.length → Evaluated ops env r.graph i := by
    intro i hi
    obtain ⟨nd, e, xs, h1, h2, h3⟩ := rev i (by omega)
    exact ⟨nd, e, xs, h1, by rw [re]; exact h2, h3⟩
  have hall' : ∀ i, i < r.graph.nodes.length → Evaluated ops env r'.graph i := by
    intro i hi
    obtain ⟨nd, e, xs, h1, h2, h3⟩ := rev' i (by omega)
    exact ⟨nd, e, xs, h1, by rw [re']; exact h2, h3⟩
  have hnodes : r'.graph.nodes = r.graph.nodes :=
    evaluated_unique hrd (by rw [re', he, re]) (by rw [rs', hs, rs]) hall hall'
  have hgraph : r'.graph = r.graph := by
    have e1 : r'.graph.edges = r.graph.edges := by rw [re', he, re]
    have e2 : r'.graph.parameter_edges = r.graph.parameter_edges := by rw [rp', hp, rp]
    have e3 : r'.graph.last_node_evaluated = r.graph.last_node_evaluated := by rw [rc', rc, hl]
    cases hx : r'.graph
    cases hy : r.graph
    simp_all
  refine ⟨r, r', hr, hr', hgraph, ?_⟩
  rw [hnodes, rv] at rv'
  simpa using rv'.symm

/-- Claim C11. On the graph `f = p1 + x` with `p1 = 2` and `x` bound to `3`, `forward()`
returns `5`; `backward()` then calls `Edge::backward` once, for the position of `p1`, and
`accumulate_grad` once, on the edge of `p1` and with gradient `1`; the gradient of `x` stays
zero. -/
theorem end_to_end_scenario :
    (bound_graph.forward scalar_ops 3).toOption.map (fun r => r.value) = some 5 ∧
    (cycle scalar_ops 3 bound_graph).toOption.map (fun p => p.2) =
      some [Event.backward 2 0 0, Event.accumulate_grad 0 1] ∧
    (cycle scalar_ops 3 bound_graph).toOption.map (fun p => node_states p.1) =
      some [(2, 1), (3, 0), (5, 1)] := by
  decide

/-- Claim C12. After the external state has changed, `forward()` on an evaluated graph
returns, and leaves the graph and returns the tensor that `forward()` on the unevaluated graph
does under the new state; `incremental_forward()` with no node appended evaluates nothing,
leaves the graph as it is and returns the old tensor. -/
theorem forward_picks_up_mutation (ops : TensorOps T) (env env' : Env) (g : Hypergraph Env T)
    (hd : g.DAG) (hne : 0 < g.nodes.length) :
    ∃ r r' fresh stale, g.forward ops env = .ok r ∧
      r.graph.forward ops env' = .ok r' ∧ g.forward ops env' = .ok fresh ∧
      r'.graph = fresh.graph ∧ r'.value = fresh.value ∧
      (∀ i, i < g.nodes.length → Evaluated ops env' r'.graph i) ∧
      r.graph.incremental_forward ops env' = .ok stale ∧
      stale.evaluated = [] ∧ stale.graph = r.graph ∧ stale.value = r.value := by
  obtain ⟨r, hr, rl, re, rp, rs, _, rc, rv⟩ := forward_spec ops env g hd hne
  obtain ⟨fresh, r', hfresh, hr', hg, hv⟩ := forward_independent ops env' g r.graph hd hne re rp rs
  obtain ⟨f2, hf2, _, fe, _, _, fev, _⟩ := forward_spec ops env' g hd hne
  rw [hfresh] at hf2
  cases hf2
  obtain ⟨stale, hstale, sg, se, sv⟩ :=
    incremental_forward_idle ops env' r.graph (by omega) (by omega)
  refine ⟨r, r', fresh, stale, hr, hr', hfresh, hg, hv, ?_, hstale, se, sg, ?_⟩
  · intro i hi
    obtain ⟨nd, e, xs, h1, h2, h3⟩ := fev i hi
    rw [hg]
    exact ⟨nd, e, xs, h1, by rw [fe]; exact h2, h3⟩
  · rw [rv] at sv
    simpa using sv.symm

/-- Claim C20. On a non-empty well-formed graph a cycle `forward(); backward()` returns, and
its outcome (the graph and the calls made, with the arguments of `accumulate_grad`) is the same
from any other values and gradients in the nodes, hence the same when the cycle is run again.
Without the `forward()`, `incremental_forward()` evaluates and zeroes nothing, and a second
`backward()` adds its terms to the gradients that the first one left. -/
theorem cycle_repeatable (ops : TensorOps T) (env : Env) (g g' : Hypergraph Env T)
    (hw : g.WellFormed) (hne : 0 < g.nodes.length) (he : g'.edges = g.edges)
    (hp : g'.parameter_edges = g.parameter_edges) (hs : g'.skeleton = g.skeleton) :
    ∃ g2 log, cycle ops env g = .ok (g2, log) ∧ cycle ops env g' = .ok (g2, log) ∧
      cycle ops env g2 = .ok (g2, log) ∧
      ∃ stale needs g3 log3, g2.incremental_forward ops env = .ok stale ∧
        stale.evaluated = [] ∧ stale.graph = g2 ∧
        g2.needs_derivative = .ok needs ∧ g2.backward ops env = .ok (g3, log3) ∧
        ∀ (j : Nat) (nd : Node T), g2.nodes[j]? = some nd →
          g3.nodes[j]? = some (Node.add_grad ops
            { nd with dEdf := if j + 1 = g.nodes.length then ops.Constant [1] 1 else nd.dEdf }
            (if needs[j]?.getD false then chain_rule_sum env g3 j else [])) := by
  obtain ⟨r, hr, rl, re, rp, rs, _, rc, _⟩ := forward_spec ops env g hw.1 hne
  have hwr : r.graph.WellFormed := wellFormed_of_frame hw re rp rs
  obtain ⟨_, g2, acc, _, hb, _, be, bp, bc, bs, _⟩ := backward_spec ops env r.graph hwr (by omega)
  generalize (List.range _).reverse.flatMap _ ++ acc = log at hb
  obtain ⟨r0, r', h0, hr', hg', _⟩ := forward_independent ops env g g' hw.1 hne he hp hs
  rw [hr] at h0
  cases h0
  obtain ⟨r0, r2, h0, hr2, hg2, _⟩ := forward_independent ops env g g2 hw.1 hne
    (be.trans re) (bp.trans rp) (bs.trans rs)
  rw [hr] at h0
  cases h0
  have hw2 : g2.WellFormed := wellFormed_of_frame hwr be bp bs
  have hl2 : g2.nodes.length = g.nodes.length := by
    rw [length_eq_of_skeleton bs, rl]
  obtain ⟨stale, hstale, sg, se, _⟩ :=
    incremental_forward_idle ops env g2 (by omega) (by rw [bc, rc]; omega)
  obtain ⟨needs, g3, acc3, hneeds, hb3, _, _, _, _, _, hn3⟩ :=
    backward_spec ops env g2 hw2 (by omega)
  refine ⟨g2, log, ?_, ?_, ?_, stale, needs, g3, _, hstale, se, sg, hneeds, hb3, ?_⟩
  · simp [cycle, hr, hb]
  · simp [cycle, hr', hg', hb]
  · simp [cycle, hr2, hg2, hb]
  · intro j nd hnd
    rw [hn3 j nd hnd, hl2]

theorem forall2_mem {α β : Type} {P : α → β → Prop} {l : List α} {m : List β}
    (h : List.Forall₂ P l m) {b : β} (hb : b ∈ m) : ∃ a, a ∈ l ∧ P a b := by
  induction h with
  | nil => cases hb
  | @cons a b' l' m' hab _ ih =>
    rcases List.mem_cons.mp hb with h | h
    · subst h
      exact ⟨a, List.mem_cons_self _ _, hab⟩
    · obtain ⟨a', ha', hp⟩ := ih h
      exact ⟨a', List.mem_cons_of_mem _ ha', hp⟩

theorem arguments_returned_iff (adds : List (Append Env T)) :
    arguments_returned adds = true ↔
      ∀ (k : Nat) (a : Append Env T), adds[k]? = some a → ∀ t : Nat, t ∈ a.tail → t < k := by
  unfold arguments_returned
  rw [List.all_eq_true]
  constructor
  · intro h k a hk t ht
    have := h k (List.mem_range.mpr (getElem?_lt hk))
    rw [hk] at this
    simp only [List.all_eq_true, decide_eq_true_eq] at this
    exact this t ht
  · intro h k hk
    cases hka : adds[k]? with
    | none => rfl
    | some a =>
      simp only [List.all_eq_true, decide_eq_true_eq]
      exact h k a hka

section Built2

variable [Inhabited T]

theorem append_apply_full (g : Hypergraph Env T) (a : Append Env T) :
    ∃ e : Edge Env T, (Append.apply g a).edges = g.edges ++ [e] ∧ e.head_node = g.nodes.length ∧
      e.has_parameters = a.is_trainable ∧ e.tail = a.tail ∧
      (Append.apply g a).parameter_edges =
        (if a.is_trainable then g.parameter_edges ++ [g.edges.length] else g.parameter_edges) := by
  cases a with
  | call c =>
    cases c <;> exact ⟨_, rfl, rfl, rfl, rfl, rfl⟩
  | function arguments fn => exact ⟨_, rfl, rfl, rfl, rfl, rfl⟩

theorem extend_snoc (adds : List (Append Env T)) (a : Append Env T) :
    ∀ g : Hypergraph Env T, extend g (adds ++ [a]) = Append.apply (extend g adds) a := by
  induction adds with
  | nil => intro g; rfl
  | cons b bs ih => intro g; exact ih (Append.apply g b)

/-- Shape of a graph built from the empty one: node `k` is produced by edge `k`, which is
the edge of the `k`-th operation, and `parameter_edges` only holds trainable operations. -/
theorem extend_empty_spec (adds : List (Append Env T)) :
    (extend (Hypergraph.empty : Hypergraph Env T) adds).Structural ∧
    (extend (Hypergraph.empty : Hypergraph Env T) adds).nodes.length = adds.length ∧
    (∀ (k : Nat) (a : Append Env T), adds[k]? = some a →
      ∃ e, (extend (Hypergraph.empty : Hypergraph Env T) adds).edges[k]? = some e ∧
        e.head_node = k ∧ e.has_parameters = a.is_trainable ∧ e.tail = a.tail) ∧
    (∀ pe, pe ∈ (extend (Hypergraph.empty : Hypergraph Env T) adds).parameter_edges →
      ∃ a, adds[pe]? = some a ∧ a.is_trainable = true) := by
  induction adds using List.reverseRecOn with
  | nil =>
    refine ⟨⟨rfl, fun i nd h => by simp [extend, Hypergraph.empty] at h⟩, rfl, ?_, ?_⟩
    · intro k a h; simp at h
    · intro pe h; simp [extend, Hypergraph.empty] at h
  | append_singleton adds a ih =>
    obtain ⟨hS, hl, hedge, hpar⟩ := ih
    rw [extend_snoc]
    generalize extend (Hypergraph.empty : Hypergraph Env T) adds = G at *
    obtain ⟨e, he, hh, hp, ht, hpe⟩ := append_apply_full G a
    obtain ⟨_, hn, _, _, _⟩ := append_apply_spec G a
    have hel : G.edges.length = adds.length := by rw [← hS.1, hl]
    refine ⟨structural_apply hS a, by rw [hn]; simp [hl], ?_, ?_⟩
    · intro k b hk
      rw [he]
      by_cases hlt : k < adds.length
      · rw [List.getElem?_append_left hlt] at hk
        obtain ⟨e', h1, h2⟩ := hedge k b hk
        exact ⟨e', by rw [List.getElem?_append_left (by omega)]; exact h1, h2⟩
      · have hk' := getElem?_lt hk
        simp at hk'
        have hka : k = adds.length := by omega
        subst hka
        rw [List.getElem?_append_right (le_refl _)] at hk
        simp at hk
        subst hk
        refine ⟨e, ?_, by rw [hh, hl], hp, ht⟩
        rw [List.getElem?_append_right (by omega)]
        simp [hel]
    · intro pe hmem
      rw [hpe] at hmem
      by_cases hta : a.is_trainable = true
      · rw [if_pos hta] at hmem
        rcases List.mem_append.mp hmem with h | h
        · obtain ⟨b, hb, hbt⟩ := hpar pe h
          exact ⟨b, by rw [List.getElem?_append_left (getElem?_lt hb)]; exact hb, hbt⟩
        · simp at h
          subst h
          exact ⟨a, by rw [hel, List.getElem?_append_right (le_refl _)]; simp, hta⟩
      · rw [if_neg hta] at hmem
        obtain ⟨b, hb, hbt⟩ := hpar pe hmem
        exact ⟨b, by rw [List.getElem?_append_left (getElem?_lt hb)]; exact hb, hbt⟩

theorem extend_empty_wellFormed (adds : List (Append Env T))
    (hd : (extend (Hypergraph.empty : Hypergraph Env T) adds).DAG) :
    (extend (Hypergraph.empty : Hypergraph Env T) adds).WellFormed := by
  obtain ⟨_, hl, hedge, hpar⟩ := extend_empty_spec adds
  refine ⟨hd, ?_⟩
  rw [parameter_check_iff]
  intro pe hpe
  obtain ⟨a, ha, _⟩ := hpar pe hpe
  obtain ⟨e, h1, h2, _⟩ := hedge pe a ha
  exact ⟨e, h1, by rw [h2, hl]; exact getElem?_lt ha⟩

theorem run_calls_eq_extend (cs : List (AddCall Env T)) : ∀ g : Hypergraph Env T,
    (run_calls g cs).1 = extend g (cs.map Append.call) := by
  induction cs with
  | nil => intro g; rfl
  | cons c cs ih => intro g; exact ih (AddCall.apply g c).1

/-- Claim C3. Every graph built from the empty one satisfies the DAG invariant: every node
has a producing edge, and every tail index of that edge is smaller than the index of the node.
For the members of `cnn.cc`, which create edges without tail, this holds for every sequence of
calls; with operator applications, whose tail is the argument list, it holds when every
argument is an index returned by an earlier operation. -/
theorem dag_well_formedness (cs : List (AddCall Env T)) (adds : List (Append Env T))
    (hargs : arguments_returned adds = true) :
    ((build cs).DAG ∧
      ∀ (i : Nat) (nd : Node T), (build cs).nodes[i]? = some nd →
        ∃ e, (build cs).edges[nd.in_edge]? = some e ∧ ∀ t : Nat, t ∈ e.tail → t < i) ∧
    build cs = extend Hypergraph.empty (cs.map Append.call) ∧
    arguments_returned (cs.map Append.call) = true ∧
    (extend (Hypergraph.empty : Hypergraph Env T) adds).DAG ∧
    ∀ (i : Nat) (nd : Node T), (extend (Hypergraph.empty : Hypergraph Env T) adds).nodes[i]? = some nd →
      ∃ a e, adds[i]? = some a ∧
        (extend (Hypergraph.empty : Hypergraph Env T) adds).edges[nd.in_edge]? = some e ∧
        e.tail = a.tail ∧ ∀ t : Nat, t ∈ e.tail → t < i := by
  obtain ⟨hS, hl, hedge, _⟩ := extend_empty_spec adds
  have hr := (arguments_returned_iff adds).mp hargs
  have key : ∀ (i : Nat) (nd : Node T),
      (extend (Hypergraph.empty : Hypergraph Env T) adds).nodes[i]? = some nd →
      ∃ a e, adds[i]? = some a ∧
        (extend (Hypergraph.empty : Hypergraph Env T) adds).edges[nd.in_edge]? = some e ∧
        e.tail = a.tail ∧ ∀ t : Nat, t ∈ e.tail → t < i := by
    intro i nd hnd
    have hi : i < adds.length := by rw [← hl]; exact getElem?_lt hnd
    obtain ⟨e, he, _, _, het⟩ := hedge i adds[i] (List.getElem?_eq_getElem hi)
    refine ⟨adds[i], e, List.getElem?_eq_getElem hi, by rw [hS.2 i nd hnd]; exact he, het, ?_⟩
    intro t ht
    rw [het] at ht
    exact hr i adds[i] (List.getElem?_eq_getElem hi) t ht
  refine ⟨⟨build_DAG cs, ?_⟩, run_calls_eq_extend cs _, ?_, ?_, key⟩
  · intro i nd hnd
    obtain ⟨nd', e, h1, h2, h3⟩ := (DAG_iff _).mp (build_DAG cs) i (getElem?_lt hnd)
    rw [hnd] at h1
    cases h1
    exact ⟨e, h2, h3⟩
  · rw [arguments_returned_iff]
    intro k a hk t ht
    rw [List.getElem?_map] at hk
    cases hc : cs[k]? with
    | none => rw [hc] at hk; cases hk
    | some c =>
      rw [hc] at hk
      cases hk
      cases ht
  · rw [DAG_iff]
    intro i hi
    obtain ⟨nd, hnd⟩ : ∃ nd, (extend (Hypergraph.empty : Hypergraph Env T) adds).nodes[i]? = some nd :=
      ⟨_, List.getElem?_eq_getElem hi⟩
    obtain ⟨_, e, _, he, _, ht⟩ := key i nd hnd
    exact ⟨nd, e, hnd, he, ht⟩

end Built2

/-- What `backward()` does to a node whose flag `needs_derivative` is not set: no call of
`Edge::backward` contributes to it, and its gradient is as the seeding step left it. -/
theorem unflagged_node_spec (ops : TensorOps T) (env : Env) (g : Hypergraph Env T)
    (hw : g.WellFormed) (hne : 0 < g.nodes.length) :
    ∃ needs g2 sweep acc, g.needs_derivative = .ok needs ∧
      g.backward ops env = .ok (g2, sweep ++ acc) ∧
      (∀ ev, ev ∈ sweep → ∃ m ti t, ev = Event.backward m ti t ∧ needs[t]?.getD false = true) ∧
      (∀ ev, ev ∈ acc → ∃ pe d, pe ∈ g.parameter_edges ∧ ev = Event.accumulate_grad pe d) ∧
      ∀ (n : Nat) (nd : Node T), g.nodes[n]? = some nd → needs[n]?.getD false = false →
        g2.nodes[n]? = some
          { nd with dEdf := if n + 1 = g.nodes.length then ops.Constant [1] 1 else nd.dEdf } := by
  obtain ⟨needs, g2, acc, hneeds, hb, hacc, _, _, _, _, hn⟩ := backward_spec ops env g hw hne
  refine ⟨needs, g2, _, acc, hneeds, hb, ?_, ?_, ?_⟩
  · intro ev hev
    obtain ⟨m, ti, t, rfl⟩ := sweep_events needs g _ ev hev
    rw [List.mem_flatMap] at hev
    obtain ⟨i, _, hi⟩ := hev
    obtain ⟨_, _, _, _, _, _, hneed⟩ := (mem_backward_calls needs g i m ti t).mp hi
    exact ⟨m, ti, t, rfl, hneed⟩
  · intro ev hev
    obtain ⟨pe, hpe, e, nd, _, _, h⟩ := forall2_mem hacc hev
    exact ⟨pe, _, hpe, h⟩
  · intro n nd hnd hfalse
    rw [hn n nd hnd]
    simp [hfalse, add_grad_nil]

section Built3

variable [Inhabited T]

/-- Claim C13, as amended. For a node created by `add_const_lookup` in a graph built from
the empty one, the flag `needs_derivative` is not set: `backward()` adds no contribution to its
gradient, which stays the zero tensor that `forward()` wrote (the seed if the node is the last
one), and `accumulate_grad` is not called on its edge. -/
theorem const_lookup_gradient_untouched (ops : TensorOps T) (env : Env)
    (adds : List (Append Env T)) (k : Nat) (p : EdgeImpl Env T)
    (hk : adds[k]? = some (Append.call (AddCall.add_const_lookup p)) ∨
      adds[k]? = some (Append.call (AddCall.add_const_lookup_pindex p)))
    (hd : (extend (Hypergraph.empty : Hypergraph Env T) adds).DAG) :
    ∃ r needs g2 log, (extend (Hypergraph.empty : Hypergraph Env T) adds).forward ops env = .ok r ∧
      r.graph.needs_derivative = .ok needs ∧ needs[k]?.getD false = false ∧
      r.graph.backward ops env = .ok (g2, log) ∧
      (∀ m ti, Event.backward m ti k ∉ log) ∧
      (∀ d, Event.accumulate_grad k d ∉ log) ∧
      ∃ nd : Node T, r.graph.nodes[k]? = some nd ∧ g2.nodes[k]? = some
        { nd with dEdf := if k + 1 = adds.length then ops.Constant [1] 1
                          else ops.Zero (ops.size nd.f) } := by
  obtain ⟨hS, hl, hedge, hpar⟩ := extend_empty_spec adds
  have hw := extend_empty_wellFormed adds hd
  obtain ⟨a, ha, hnt, htail⟩ : ∃ a : Append Env T, adds[k]? = some a ∧
      a.is_trainable = false ∧ a.tail = [] := by
    rcases hk with h | h
    · exact ⟨_, h, rfl, rfl⟩
    · exact ⟨_, h, rfl, rfl⟩
  have hkl : k < adds.length := getElem?_lt ha
  obtain ⟨e, hek, _, hep, het⟩ := hedge k a ha
  generalize extend (Hypergraph.empty : Hypergraph Env T) adds = G at *
  obtain ⟨r, hr, rl, re, rp, rs, rev, _, _⟩ := forward_spec ops env G hd (by omega)
  have hwr : r.graph.WellFormed := wellFormed_of_frame hw re rp rs
  obtain ⟨needs, g2, sweep, acc, hneeds, hb, hsweep, hacc, hn⟩ :=
    unflagged_node_spec ops env r.graph hwr (by omega)
  obtain ⟨needs', hneeds', _, hrec⟩ := needs_derivative_spec r.graph hwr.1
  rw [hneeds] at hneeds'
  cases hneeds'
  obtain ⟨nd, e', xs, h1, h2, _, _, hz⟩ := rev k (by omega)
  have hin : nd.in_edge = k := by
    obtain ⟨nd0, hnd0⟩ : ∃ nd0, G.nodes[k]? = some nd0 :=
      ⟨_, List.getElem?_eq_getElem (by omega)⟩
    obtain ⟨nd', k1, k2, _⟩ := skeleton_get rs hnd0
    rw [h1] at k1
    cases k1
    rw [k2]
    exact hS.2 k nd0 hnd0
  have hflag : needs[k]?.getD false = false := by
    obtain ⟨nd', e'', g1, g2', g3⟩ := hrec k (by omega)
    rw [h1] at g1; cases g1
    rw [re, hin, hek] at g2'; cases g2'
    rw [g3, hep, hnt, het, htail]
    rfl
  refine ⟨r, needs, g2, _, hr, hneeds, hflag, hb, ?_, ?_, nd, h1, ?_⟩
  · intro m ti hmem
    rcases List.mem_append.mp hmem with h | h
    · obtain ⟨m', ti', t', heq, hneed⟩ := hsweep _ h
      cases heq
      rw [hflag] at hneed
      cases hneed
    · obtain ⟨pe, d, _, heq⟩ := hacc _ h
      cases heq
  · intro d hmem
    rcases List.mem_append.mp hmem with h | h
    · obtain ⟨m', ti', t', heq, _⟩ := hsweep _ h
      cases heq
    · obtain ⟨pe, d', hpe, heq⟩ := hacc _ h
      cases heq
      rw [rp] at hpe
      obtain ⟨b, hb', hbt⟩ := hpar k hpe
      rw [ha] at hb'
      cases hb'
      rw [hnt] at hbt
      cases hbt
  · rw [hn k nd h1 hflag, rl, hl, hz]

/-- The claim C13 fails on the graph `f = c + p` with `c` added by `add_const_lookup`: after
`forward()` and `backward()` the consumer `f` owes to `c` the non-zero term `1`, and the
gradient of `c` is zero. -/
theorem const_lookup_counterexample :
    (cycle scalar_ops () const_lookup_graph).toOption.map (fun p => node_states p.1) =
      some [(3, 0), (2, 1), (5, 1)] ∧
    (cycle scalar_ops () const_lookup_graph).toOption.map (fun p => chain_rule_sum () p.1 0) =
      some [1] ∧
    (cycle scalar_ops () const_lookup_graph).toOption.map (fun p => p.2) =
      some [Event.backward 2 1 1, Event.accumulate_grad 1 1] := by
  decide

end Built3

/-! ## Instances on the sample graphs -/

/-- Full recomputation on the sample graph `f = p1 + x`: with `x` rebound from `3` to `10`,
`forward()` returns `12` and `incremental_forward()` still returns `5`. -/
theorem forward_picks_up_mutation_witness :
    bound_graph.DAG ∧ 0 < bound_graph.nodes.length ∧
    (∃ r r' fresh stale, bound_graph.forward scalar_ops 3 = .ok r ∧
      r.graph.forward scalar_ops 10 = .ok r' ∧ bound_graph.forward scalar_ops 10 = .ok fresh ∧
      r'.graph = fresh.graph ∧ r'.value = fresh.value ∧
      (∀ i, i < bound_graph.nodes.length → Evaluated scalar_ops 10 r'.graph i) ∧
      r.graph.incremental_forward scalar_ops 10 = .ok stale ∧
      stale.evaluated = [] ∧ stale.graph = r.graph ∧ stale.value = r.value) ∧
    (bound_graph.forward scalar_ops 3).toOption.map (fun r => r.value) = some 5 ∧
    ((after_forward scalar_ops 3 bound_graph).forward scalar_ops 10).toOption.map
      (fun r => r.value) = some 12 ∧
    ((after_forward scalar_ops 3 bound_graph).incremental_forward scalar_ops 10).toOption.map
      (fun r => (r.value, r.evaluated)) = some (5, []) :=
  ⟨by decide, by decide,
    forward_picks_up_mutation scalar_ops 3 10 bound_graph (by decide) (by decide),
    by decide, by decide, by decide⟩

/-- The const lookup of the sample graph `f = c + p` keeps a zero gradient. -/
theorem const_lookup_gradient_untouched_witness :
    (const_lookup_additions[0]? =
        some (Append.call (AddCall.add_const_lookup (constant_edge 3))) ∨
      const_lookup_additions[0]? =
        some (Append.call (AddCall.add_const_lookup_pindex (constant_edge 3)))) ∧
    (extend (Hypergraph.empty : Hypergraph Unit Int) const_lookup_additions).DAG ∧
    ∃ r needs g2 log,
      (extend (Hypergraph.empty : Hypergraph Unit Int) const_lookup_additions).forward
        scalar_ops () = .ok r ∧
      r.graph.needs_derivative = .ok needs ∧ needs[0]?.getD false = false ∧
      r.graph.backward scalar_ops () = .ok (g2, log) ∧
      (∀ m ti, Event.backward m ti 0 ∉ log) ∧
      (∀ d, Event.accumulate_grad 0 d ∉ log) ∧
      ∃ nd : Node Int, r.graph.nodes[0]? = some nd ∧ g2.nodes[0]? = some
        { nd with dEdf := if 0 + 1 = const_lookup_additions.length then scalar_ops.Constant [1] 1
                          else scalar_ops.Zero (scalar_ops.size nd.f) } :=
  ⟨Or.inl rfl, by decide,
    const_lookup_gradient_untouched scalar_ops () const_lookup_additions 0 (constant_edge 3)
      (Or.inl rfl) (by decide)⟩

/-- The flags of the sample graph `f = p + x`. -/
theorem reachability_flags_trainable_sources_witness :
    sample_graph.DAG ∧
    ∃ needs, sample_graph.needs_derivative = .ok needs ∧
      (∀ n, n < sample_graph.nodes.length →
        (needs[n]?.getD false = true ↔ ∃ a, TailPath sample_graph a n ∧ Trainable sample_graph a)) ∧
      (∀ n, OnParameterPath sample_graph n → needs[n]?.getD false = true) :=
  ⟨by decide, reachability_flags_trainable_sources sample_graph (by decide)⟩

/-- The recurrence of the flags on the sample graph `f = p + x`. -/
theorem single_sweep_reachability_witness :
    sample_graph.DAG ∧
    ∃ needs, sample_graph.needs_derivative = .ok needs ∧ needs.length = sample_graph.nodes.length ∧
      (∀ (n : Nat) (nd : Node Int) (e : Edge Unit Int), sample_graph.nodes[n]? = some nd →
        sample_graph.edges[nd.in_edge]? = some e →
        needs[n]? = some (e.has_parameters || e.tail.any fun t => needs[t]?.getD false)) ∧
      (∀ n, n < sample_graph.nodes.length →
        (needs[n]? = some true ↔ ∃ a, TailPath sample_graph a n ∧ Trainable sample_graph a)) :=
  ⟨by decide, single_sweep_reachability sample_graph (by decide)⟩

/-- The seed on the graph of one node holding a tensor of two entries. -/
theorem seed_is_constant_one_witness :
    pair_graph.WellFormed ∧ 0 < pair_graph.nodes.length ∧
    ∃ g2 log, pair_graph.backward vector_ops () = .ok (g2, log) ∧
      ∀ nd : Node (List Int), pair_graph.nodes[pair_graph.nodes.length - 1]? = some nd →
        g2.nodes[pair_graph.nodes.length - 1]? =
          some { nd with dEdf := vector_ops.Constant [1] 1 } :=
  ⟨by decide, by decide, seed_is_constant_one vector_ops () pair_graph (by decide) (by decide)⟩

/-- The frame of `backward()` on the sample graph `f = p + x`. -/
theorem backward_frame_witness :
    sample_graph.WellFormed ∧ 0 < sample_graph.nodes.length ∧
    ∃ g2 log, sample_graph.backward scalar_ops () = .ok (g2, log) ∧
      g2.edges = sample_graph.edges ∧ g2.parameter_edges = sample_graph.parameter_edges ∧
      g2.last_node_evaluated = sample_graph.last_node_evaluated ∧
      g2.nodes.length = sample_graph.nodes.length ∧ g2.edges.length = sample_graph.edges.length ∧
      ∀ (j : Nat) (nd : Node Int), sample_graph.nodes[j]? = some nd →
        ∃ nd2 : Node Int, g2.nodes[j]? = some nd2 ∧ nd2.in_edge = nd.in_edge ∧
          nd2.node_index = nd.node_index ∧ nd2.f = nd.f :=
  ⟨by decide, by decide, backward_frame scalar_ops () sample_graph (by decide) (by decide)⟩

/-- Index safety on the sample graph `f = p + x` and on the empty graph. -/
theorem index_safety_witness :
    sample_graph.WellFormed ∧ 0 < sample_graph.nodes.length ∧
    (Hypergraph.empty : Hypergraph Unit Int).nodes = [] ∧
    (∃ r, sample_graph.incremental_forward scalar_ops () = .ok r) ∧
    (∃ r, sample_graph.forward scalar_ops () = .ok r) ∧
    (∃ p, sample_graph.backward scalar_ops () = .ok p) ∧
    (Hypergraph.empty : Hypergraph Unit Int).incremental_forward scalar_ops () =
      .error .back_of_empty ∧
    (Hypergraph.empty : Hypergraph Unit Int).forward scalar_ops () = .error .back_of_empty ∧
    (Hypergraph.empty : Hypergraph Unit Int).backward scalar_ops () = .error .back_of_empty :=
  ⟨by decide, by decide, rfl,
    index_safety scalar_ops () sample_graph Hypergraph.empty (by decide) (by decide) rfl⟩

/-- Repeated cycles on the sample graph `f = p + x`: every cycle leaves the gradients
`1, 0, 1` and passes `1` to `accumulate_grad`, while a second `backward()` without `forward()`
leaves `2` in the gradient of `p` and passes `2`. -/
theorem cycle_repeatable_witness :
    sample_graph.WellFormed ∧ 0 < sample_graph.nodes.length ∧
    scrambled_sample_graph.edges = sample_graph.edges ∧
    scrambled_sample_graph.parameter_edges = sample_graph.parameter_edges ∧
    scrambled_sample_graph.skeleton = sample_graph.skeleton ∧
    (∃ g2 log, cycle scalar_ops () sample_graph = .ok (g2, log) ∧
      cycle scalar_ops () scrambled_sample_graph = .ok (g2, log) ∧
      cycle scalar_ops () g2 = .ok (g2, log) ∧
      ∃ stale needs g3 log3, g2.incremental_forward scalar_ops () = .ok stale ∧
        stale.evaluated = [] ∧ stale.graph = g2 ∧
        g2.needs_derivative = .ok needs ∧ g2.backward scalar_ops () = .ok (g3, log3) ∧
        ∀ (j : Nat) (nd : Node Int), g2.nodes[j]? = some nd →
          g3.nodes[j]? = some (Node.add_grad scalar_ops
            { nd with dEdf := if j + 1 = sample_graph.nodes.length then scalar_ops.Constant [1] 1
                              else nd.dEdf }
            (if needs[j]?.getD false then chain_rule_sum () g3 j else []))) ∧
    (cycle scalar_ops () (after_cycle scalar_ops () sample_graph)).toOption.map
      (fun p => (node_states p.1, p.2)) =
      some ([(2, 1), (3, 0), (5, 1)], [Event.backward 2 0 0, Event.accumulate_grad 0 1]) ∧
    ((after_cycle scalar_ops () sample_graph).backward scalar_ops ()).toOption.map
      (fun p => (node_states p.1, p.2)) =
      some ([(2, 2), (3, 0), (5, 1)], [Event.backward 2 0 0, Event.accumulate_grad 0 2]) :=
  ⟨by decide, by decide, rfl, rfl, by decide,
    cycle_repeatable scalar_ops () sample_graph scrambled_sample_graph (by decide) (by decide)
      rfl rfl (by decide),
    by decide, by decide⟩

/-- The DAG invariant on the sample graph `f = p + x`, whose last edge has the tail `[0, 1]`. -/
theorem dag_well_formedness_witness :
    arguments_returned sample_additions = true ∧
    (((build [AddCall.add_parameter (constant_edge 2)]).DAG ∧
      ∀ (i : Nat) (nd : Node Int),
        (build [AddCall.add_parameter (constant_edge 2)]).nodes[i]? = some nd →
        ∃ e, (build [AddCall.add_parameter (constant_edge 2)]).edges[nd.in_edge]? = some e ∧
          ∀ t : Nat, t ∈ e.tail → t < i) ∧
    build [AddCall.add_parameter (constant_edge 2)] =
      extend Hypergraph.empty ([AddCall.add_parameter (constant_edge 2)].map Append.call) ∧
    arguments_returned ([AddCall.add_parameter (constant_edge 2)].map Append.call) = true ∧
    (extend (Hypergraph.empty : Hypergraph Unit Int) sample_additions).DAG ∧
    ∀ (i : Nat) (nd : Node Int),
      (extend (Hypergraph.empty : Hypergraph Unit Int) sample_additions).nodes[i]? = some nd →
      ∃ a e, sample_additions[i]? = some a ∧
        (extend (Hypergraph.empty : Hypergraph Unit Int) sample_additions).edges[nd.in_edge]? =
          some e ∧
        e.tail = a.tail ∧ ∀ t : Nat, t ∈ e.tail → t < i) ∧
    ((extend (Hypergraph.empty : Hypergraph Unit Int) sample_additions).edges[2]?).map
      (fun e => e.tail) = some [0, 1] :=
  ⟨by decide,
    dag_well_formedness [AddCall.add_parameter (constant_edge 2)] sample_additions (by decide),
    by decide⟩

end cnn
